import Mathlib

/-!
# Verification of the MPV tracker engine (`src/IND8_Tracker.py`)

This file gives a shallow embedding of the report-reconciliation and
risk-evaluation engine of `IND8_Tracker.py` and proves / refutes the frozen
claims about it.

Modelling conventions:
* Python strings are Lean `String`s; character-level operations are written
  over `String.data` (`List Char`) so that they compute and can be reasoned
  about by induction.
* Python `float` arithmetic on durations/hours is modelled with exact
  rationals (`ℚ`).
* Python `dict`s (which preserve insertion order, and keep a key's position
  on reassignment) are modelled as association lists `List (String × α)`
  with `dictGet` / `dictSet` below.
* The regex-driven HTML tokenisation (locating `<table>`, `<tr>`, `<td>`
  fragments) is abstracted: the row-processing functions take the lists of
  raw cell strings that `re.findall` would yield.  The per-cell text
  extraction `_strip_html` *is* modelled, as are all row-classification,
  accumulation, reconciliation, dedup and sorting steps.
-/

namespace IND8

/-! ## Python string primitives -/

/-- Index of the first occurrence of `needle` in a character list
(`str.find` / the scan position of `re.search`).  An empty needle matches at
position 0, as in Python. -/
def subIdx (needle : List Char) : List Char → Option Nat
  | [] => if needle.isEmpty then some 0 else none
  | c :: rest =>
    if needle.isPrefixOf (c :: rest) then some 0
    else (subIdx needle rest).map (· + 1)

/-- Python `sub in s` (substring containment). -/
def strContains (s sub : String) : Bool :=
  (subIdx sub.data s.data).isSome

/-- Python `pre` `.startswith` test: `s.startswith(pre)`. -/
def strStartsWith (s pre : String) : Bool :=
  pre.data.isPrefixOf s.data

/-- Python `str.strip()`: remove leading and trailing whitespace. -/
def pyStrip (s : String) : String :=
  String.mk (((s.data.dropWhile Char.isWhitespace).reverse.dropWhile Char.isWhitespace).reverse)

/-- Python `str.replace(c, "")` for a single-character pattern: drop every
occurrence of that character. -/
def pyReplaceChar (cs : List Char) (c : Char) : List Char :=
  cs.filter (fun x => x ≠ c)

/-- Python `str.split(sep)` for a single-character separator. -/
def splitOnChar (sep : Char) : List Char → List (List Char)
  | [] => [[]]
  | c :: rest =>
    match splitOnChar sep rest with
    | [] => if c = sep then [[], []] else [[c]]
    | h :: t => if c = sep then [] :: h :: t else (c :: h) :: t

/-- Numeric value of a digit string. -/
def digitsVal (cs : List Char) : Nat :=
  cs.foldl (fun acc c => acc * 10 + (c.toNat - '0'.toNat)) 0

/-- Models Python `int(str)`: strip whitespace, then an optional single sign
followed by one or more decimal digits; anything else raises `ValueError`
(here: `none`).  (Python's underscore digit grouping and non-ASCII digits
are not modelled.) -/
def pyInt (s : String) : Option Int :=
  let cs := (pyStrip s).data
  let signAndDigits : Int × List Char :=
    if cs.headD ' ' = '-' then (-1, cs.tail)
    else if cs.headD ' ' = '+' then (1, cs.tail)
    else (1, cs)
  let digits := signAndDigits.2
  if digits.isEmpty then none
  else if digits.all Char.isDigit then some (signAndDigits.1 * (digitsVal digits : Int))
  else none

/-- Models Python `float(str)` on plain decimal literals: optional sign,
digits with an optional fractional part ("7", "7.5", ".5", "5.").
(Exponents, `inf`/`nan` and underscore grouping are not modelled.) -/
def pyFloat (s : String) : Option ℚ :=
  let cs := (pyStrip s).data
  let signAndBody : ℚ × List Char :=
    if cs.headD ' ' = '-' then (-1, cs.tail)
    else if cs.headD ' ' = '+' then (1, cs.tail)
    else (1, cs)
  let body := signAndBody.2
  match (splitOnChar '.' body).map String.mk with
  | [a] =>
    if a.data ≠ [] ∧ a.data.all Char.isDigit then some (signAndBody.1 * digitsVal a.data)
    else none
  | [a, b] =>
    if (a.data ≠ [] ∨ b.data ≠ []) ∧ a.data.all Char.isDigit ∧ b.data.all Char.isDigit then
      some (signAndBody.1 * (digitsVal a.data + (digitsVal b.data : ℚ) / 10 ^ b.data.length))
    else none
  | _ => none

/-- Python `int(q)` on a number: truncation toward zero. -/
def ratTrunc (q : ℚ) : Int := q.num / q.den

/-- Python `q % 1` on a number: `q - floor(q)` (the result has the sign of
the divisor, hence is in `[0, 1)`). -/
def ratMod1 (q : ℚ) : ℚ := q - Int.fdiv q.num q.den

/-- Python `f-string` `{n:02d}` formatting of an integer. -/
def pad2 (n : Int) : String :=
  if 0 ≤ n ∧ n < 10 then "0" ++ toString n else toString n

/-! ## HTML cell-text extraction (`FclmClient._strip_html`) -/

/-- The leftmost match of the regex `<a[^>]*>(.*?)</a>` (group 1): find the
first `<a`, the first `>` after it, and capture lazily up to the first
`</a>`. -/
def findLinkText (s : String) : Option String :=
  match subIdx ("<a".data) s.data with
  | none => none
  | some p =>
    let afterOpen := s.data.drop (p + 2)
    match afterOpen.findIdx? (fun ch => ch = '>') with
    | none => none
    | some q =>
      let body := afterOpen.drop (q + 1)
      match subIdx ("</a>".data) body with
      | none => none
      | some r => some (String.mk (body.take r))

/-- One rewriting pass of `re.sub(r'<[^>]+>', '', s)`: at a `<`, if the next
`>` is at least two characters away, the whole tag is dropped; otherwise the
character is kept and scanning resumes one position later.  Fuel-driven so
that it is structural (the fuel is initialised to the list length, which is
always sufficient since every tag removal consumes at least three
characters). -/
def removeTagsAux : Nat → List Char → List Char
  | 0, _ => []
  | _, [] => []
  | fuel + 1, c :: rest =>
    if c = '<' then
      match rest.findIdx? (fun ch => ch = '>') with
      | some i =>
        if 1 ≤ i then removeTagsAux fuel (rest.drop (i + 1))
        else c :: removeTagsAux fuel rest
      | none => c :: removeTagsAux fuel rest
    else c :: removeTagsAux fuel rest

/-- `re.sub(r'<[^>]+>', '', s)`. -/
def removeTags (s : String) : String :=
  String.mk (removeTagsAux s.data.length s.data)

/-- `FclmClient._strip_html`: remove HTML tags, preferring the text of an
embedded link. -/
def stripHtml (html_str : String) : String :=
  match findLinkText html_str with
  | some t => pyStrip t
  | none => pyStrip (removeTags html_str)

/-! ## Configuration tables (module-level constants of `IND8_Tracker.py`) -/

/-- `FCLM_RESTRICTED_PATHS`. -/
def FCLM_RESTRICTED_PATHS : List String :=
  ["Vreturns WaterSpider",
   "C-Returns_EndofLine",
   "Water Spider",
   "WHD Waterspider",
   "WHD Water Spider",
   "Team_Mech_Wspider"]

/-- One value of `FCLM_PATH_MAP`. -/
structure PathInfo where
  area : String
  role : String
  work_type : String
deriving DecidableEq, Repr

/-- `FCLM_PATH_MAP` (the Python key "type" is field `work_type` here). -/
def FCLM_PATH_MAP : List (String × PathInfo) :=
  [("C-Returns_EndofLine", ⟨"CRET", "Water Spider", "INDIRECT"⟩),
   ("Vreturns WaterSpider", ⟨"VRET", "Water Spider", "INDIRECT"⟩),
   ("Water Spider", ⟨"CRET", "Water Spider", "INDIRECT"⟩),
   ("WHD Waterspider", ⟨"CRET", "Water Spider", "INDIRECT"⟩),
   ("WHD Water Spider", ⟨"CRET", "Water Spider", "INDIRECT"⟩),
   ("Team_Mech_Wspider", ⟨"CRET", "Water Spider", "INDIRECT"⟩),
   ("C-Returns Support", ⟨"CRET", "N/A", "DIRECT"⟩),
   ("C-Returns Processed", ⟨"CRET", "N/A", "DIRECT"⟩),
   ("V-Returns", ⟨"VRET", "N/A", "DIRECT"⟩),
   ("WHD Grading", ⟨"CRET", "Down Stack", "DIRECT"⟩),
   ("WHD Grading Support", ⟨"CRET", "Down Stack", "DIRECT"⟩)]

/-- `MPV_MAX_TIME_MINUTES` (4 hours 30 minutes). -/
def MPV_MAX_TIME_MINUTES : ℚ := 270

/-- `WORK_CODE_TO_PATH`, in declaration (= dict iteration) order. -/
def WORK_CODE_TO_PATH : List (String × String) :=
  [("CREOL", "C-Returns_EndofLine"),
   ("EOL", "C-Returns_EndofLine"),
   ("VRWS", "Vreturns WaterSpider"),
   ("VRETWS", "Vreturns WaterSpider"),
   ("CRSDCNTF", "Water Spider"),
   ("WHDWTSP", "WHD Waterspider"),
   ("TMWSP", "Team_Mech_Wspider")]

/-! ## Ordered dictionaries (Python `dict` as an association list) -/

/-- `d.get(k)` / `k in d`. -/
def dictGet {α : Type} : List (String × α) → String → Option α
  | [], _ => none
  | (k', v) :: rest, k => if k' = k then some v else dictGet rest k

/-- `d.get(k, v0)`. -/
def dictGetD {α : Type} (d : List (String × α)) (k : String) (v0 : α) : α :=
  (dictGet d k).getD v0

/-- `d[k] = v`: overwrite in place if the key exists (Python dicts keep the
key's original position), else append. -/
def dictSet {α : Type} : List (String × α) → String → α → List (String × α)
  | [], k, v => [(k, v)]
  | (k', v') :: rest, k, v =>
    if k' = k then (k', v) :: rest else (k', v') :: dictSet rest k v

/-! ## Duration parsing (`FclmClient._parse_fclm_duration`) -/

/-- `FclmClient._parse_fclm_duration`: parse FCLM "MM:SS" duration text into
fractional minutes; anything malformed yields 0. -/
def parse_fclm_duration (duration : String) : ℚ :=
  if duration = "" then 0
  else
    let parts := (splitOnChar ':' duration.data).map String.mk
    if parts.length ≥ 2 then
      match pyInt (parts.getD 0 ""), pyInt (parts.getD 1 "") with
      | some mins, some secs => (mins : ℚ) + (secs : ℚ) / 60
      | _, _ => 0
    else 0

/-! ## Session classification (`classify_fclm_session`) -/

/-- `title.lower().replace(" ", "").replace("_", "")`. -/
def normalizeLower (t : String) : String :=
  String.mk (pyReplaceChar (pyReplaceChar (t.data.map Char.toLower) ' ') '_')

/-- The `for path in FCLM_RESTRICTED_PATHS` loop of `classify_fclm_session`. -/
def findPathMatch (normalized title : String) : List String → Option String
  | [] => none
  | path :: rest =>
    let path_norm := normalizeLower path
    if strContains normalized path_norm || strContains path_norm normalized then some path
    else if strContains title path then some path
    else findPathMatch normalized title rest

/-- `classify_fclm_session`: classify an FCLM session title as restricted or
not; returns the restricted path name if it matches, else `none`. -/
def classify_fclm_session (title : String) : Option String :=
  if title = "" then none
  else
    let normalized := normalizeLower title
    match findPathMatch normalized title FCLM_RESTRICTED_PATHS with
    | some p => some p
    | none =>
      if strContains normalized "waterspider" then
        if strContains normalized "whd" then some "WHD Waterspider"
        else if strContains normalized "vreturn" then some "Vreturns WaterSpider"
        else some "Water Spider"
      else if strContains normalized "endofline" || strContains normalized "eol" then
        some "C-Returns_EndofLine"
      else if strContains normalized "teammech" || strContains normalized "tmwsp" then
        some "Team_Mech_Wspider"
      else none

/-! ## Session records -/

/-- One session dict produced by `FclmClient._parse_time_details`
(`end_` is the Python key "end"; `duration_minutes` is exact). -/
structure Session where
  title : String
  start : String
  end_ : String
  duration : String
  duration_minutes : ℚ
  row_type : String
deriving DecidableEq, Repr

/-! ## Per-path time accumulation (`compute_fclm_path_times`) -/

/-- `compute_fclm_path_times`: total minutes per restricted path. -/
def compute_fclm_path_times (sessions : List Session) : List (String × ℚ) :=
  sessions.foldl
    (fun path_times s =>
      match classify_fclm_session s.title with
      | some rp => dictSet path_times rp (dictGetD path_times rp 0 + s.duration_minutes)
      | none => path_times)
    []

/-! ## Risk evaluation (`check_mpv_risk`) -/

/-- `_fmt_mins`: render minutes as "Hh Mm", "Hh" or "Mm". -/
def fmt_mins (mins : ℚ) : String :=
  let h := Int.fdiv (ratTrunc mins) 60
  let m := Int.fmod (ratTrunc mins) 60
  if h > 0 && m > 0 then toString h ++ "h " ++ toString m ++ "m"
  else if h > 0 then toString h ++ "h"
  else toString m ++ "m"

/-- The result dict of `check_mpv_risk`. -/
structure RiskResult where
  has_risk : Bool
  reason : Option String
  details : Option String
  worked_paths : List String
  target_path : Option String
  path_times : List (String × ℚ)
  remaining_minutes : Option ℚ
  current_minutes : Option ℚ
deriving DecidableEq, Repr

/-- Work-code resolution inside `check_mpv_risk`: uppercase, drop spaces and
underscores, then scan `WORK_CODE_TO_PATH` for an exact or mutual-prefix
match.  The `if target_work_code:` guard of the source is the emptiness
test. -/
def resolve_work_code (target_work_code : String) : Option String :=
  if target_work_code = "" then none
  else
    let upper := String.mk
      (pyReplaceChar (pyReplaceChar (target_work_code.data.map Char.toUpper) ' ') '_')
    findWorkCode upper WORK_CODE_TO_PATH
where
  /-- The `for code, path in WORK_CODE_TO_PATH.items()` loop. -/
  findWorkCode (upper : String) : List (String × String) → Option String
    | [] => none
    | (code, path) :: rest =>
      if upper = code || strStartsWith upper code || strStartsWith code upper then some path
      else findWorkCode upper rest

/-- `check_mpv_risk`: evaluate MPV risk for a session list and a target work
code. -/
def check_mpv_risk (sessions : List Session) (target_work_code : String) : RiskResult :=
  let path_times := compute_fclm_path_times sessions
  let worked_paths := path_times.map Prod.fst
  let base : RiskResult :=
    { has_risk := false, reason := none, details := none,
      worked_paths := worked_paths, target_path := none, path_times := path_times,
      remaining_minutes := none, current_minutes := none }
  match resolve_work_code target_work_code with
  | none => base
  | some target_path =>
    let base := { base with target_path := some target_path }
    -- Rule 1: path switch (first worked path differing from the target)
    match worked_paths.find? (fun wp => wp != target_path) with
    | some wp =>
      { base with
        has_risk := true, reason := some "PATH_SWITCH",
        details := some ("Already worked " ++ wp ++ " (" ++
          fmt_mins (dictGetD path_times wp 0) ++ "). Cannot switch to " ++
          target_path ++ ".") }
    | none =>
      -- Rule 2: time exceeded
      let target_time := dictGetD path_times target_path 0
      if target_time ≥ MPV_MAX_TIME_MINUTES then
        { base with
          has_risk := true, reason := some "TIME_EXCEEDED",
          details := some ("Already " ++ fmt_mins target_time ++ " on " ++
            target_path ++ ". Max allowed is " ++ fmt_mins MPV_MAX_TIME_MINUTES ++ ".") }
      else if target_time > 0 then
        { base with
          remaining_minutes := some (MPV_MAX_TIME_MINUTES - target_time),
          current_minutes := some target_time }
      else base

/-! ## Time-details parsing (`FclmClient._parse_time_details`)

The surrounding regexes (locating the `ganttChart` table and iterating
`<tr class="...">` matches) are abstracted: a `RawRow` carries the row's
class attribute, whether the row HTML contains `"<th"`, and the raw inner
HTML of each `<td>` cell, exactly the data the source loop consumes. -/

/-- One `<tr>` regex match inside the gantt chart table. -/
structure RawRow where
  row_class : String
  has_th : Bool
  cells : List String
deriving DecidableEq, Repr

/-- The column-position rules of the loop body: extract
(title, start, end, duration) from the cells according to the row class. -/
def extractCells (row_class : String) (cells : List String) : String × String × String × String :=
  if strContains row_class "job-seg" then
    if cells.length ≥ 5 then
      (stripHtml (cells.getD 1 ""), stripHtml (cells.getD 2 ""),
       stripHtml (cells.getD 3 ""), stripHtml (cells.getD 4 ""))
    else ("", "", "", "")
  else if strContains row_class "function-seg" || strContains row_class "clock-seg" then
    let raw_title := stripHtml (cells.getD 0 "")
    let title :=
      if strContains raw_title "♦" then
        pyStrip (((splitOnChar '♦' raw_title.data).map String.mk).getLastD "")
      else raw_title
    (title, stripHtml (cells.getD 1 ""), stripHtml (cells.getD 2 ""), stripHtml (cells.getD 3 ""))
  else
    if cells.length ≥ 5 then
      let first_text := stripHtml (cells.getD 0 "")
      if first_text.length ≤ 2 then
        (stripHtml (cells.getD 1 ""), stripHtml (cells.getD 2 ""),
         stripHtml (cells.getD 3 ""), stripHtml (cells.getD 4 ""))
      else
        (first_text, stripHtml (cells.getD 1 ""), stripHtml (cells.getD 2 ""),
         stripHtml (cells.getD 3 ""))
    else
      (stripHtml (cells.getD 0 ""), stripHtml (cells.getD 1 ""),
       stripHtml (cells.getD 2 ""), stripHtml (cells.getD 3 ""))

/-- The mutable state of the row loop of `_parse_time_details`. -/
structure ParseLoopState where
  sessions : List Session
  current_activity : Option Session
  is_clocked_in : Bool
  func_seg_totals : List (String × ℚ)
deriving DecidableEq, Repr

/-- One iteration of the `for row_m in re.finditer(...)` loop. -/
def processRow (st : ParseLoopState) (r : RawRow) : ParseLoopState :=
  if strContains r.row_class "totSummary" || r.has_th then st
  else if r.cells.length < 4 then st
  else
    let tsed := extractCells r.row_class r.cells
    let title := tsed.1
    let start := tsed.2.1
    let end_ := tsed.2.2.1
    let duration := tsed.2.2.2
    if title = "" || strContains title "OffClock" || strContains title "OnClock" then st
    else
      let dur_mins := parse_fclm_duration duration
      if strContains r.row_class "function-seg" then
        -- function-seg rows accumulate per-title totals, never become sessions
        { st with func_seg_totals :=
            dictSet st.func_seg_totals title (dictGetD st.func_seg_totals title 0 + dur_mins) }
      else
        let session : Session :=
          { title := title, start := start, end_ := end_, duration := duration,
            duration_minutes := dur_mins,
            row_type := if strContains r.row_class "job-seg" then "job" else "other" }
        let st := { st with sessions := st.sessions ++ [session] }
        if end_ = "" || pyStrip end_ = "" then
          { st with current_activity := some session, is_clocked_in := true }
        else st

/-- The whole row loop. -/
def parseLoop (rows : List RawRow) : ParseLoopState :=
  rows.foldl processRow { sessions := [], current_activity := none,
                          is_clocked_in := false, func_seg_totals := [] }

/-- Job-seg minute totals per title, over the retained sessions. -/
def job_seg_totals (sessions : List Session) : List (String × ℚ) :=
  sessions.foldl
    (fun m s => dictSet m s.title (dictGetD m s.title 0 + s.duration_minutes)) []

/-- The duration text of a synthetic correction session:
`f"{int(diff)}:{int((diff % 1) * 60):02d}"`. -/
def corrDurationText (diff : ℚ) : String :=
  toString (ratTrunc diff) ++ ":" ++ pad2 (ratTrunc (ratMod1 diff * 60))

/-- The reconciliation pass: for every title whose function-seg total
exceeds its job-seg total, one synthetic correction session carrying the
difference. -/
def correctionSessions (func_seg_totals job_totals : List (String × ℚ)) : List Session :=
  func_seg_totals.filterMap (fun pf =>
    let path := pf.1
    let func_mins := pf.2
    let job_mins := dictGetD job_totals path 0
    if func_mins > job_mins then
      some { title := path, start := "", end_ := "",
             duration := corrDurationText (func_mins - job_mins),
             duration_minutes := func_mins - job_mins, row_type := "correction" }
    else none)

/-- The parsed result of `_parse_time_details`.  `hours_on_task` and
`total_scheduled_hours` come from a regex over the whole page, outside the
row model; with the marker absent they stay 0. -/
structure ParsedTimeDetails where
  employee_id : String
  sessions : List Session
  current_activity : Option Session
  is_clocked_in : Bool
  hours_on_task : ℚ
  total_scheduled_hours : ℚ
deriving DecidableEq, Repr

/-- `FclmClient._parse_time_details`, from the extracted rows of the gantt
chart table. -/
def parse_time_details (rows : List RawRow) (employee_id : String) : ParsedTimeDetails :=
  let st := parseLoop rows
  let job := job_seg_totals st.sessions
  { employee_id := employee_id,
    sessions := st.sessions ++ correctionSessions st.func_seg_totals job,
    current_activity := st.current_activity,
    is_clocked_in := st.is_clocked_in,
    hours_on_task := 0,
    total_scheduled_hours := 0 }

/-! ## Session consolidation (`App._display_fclm_employee`, lines 1823-1887)

Only the consolidation pass is modelled (grouping, minute accumulation,
first-start / last-end tracking); the surrounding widget updates and the
independent indirect-hours status text are presentation. -/

/-- One value of the `consolidated` dict. -/
structure ConsEntry where
  work_type : String
  area : String
  label : String
  mins : ℚ
  first_start : String
  last_end : String
deriving DecidableEq, Repr

/-- Classification part of the loop body: the grouping key together with the
work type, area and label of a session.  `mapping` is
`FCLM_PATH_MAP.get(rp or title, FCLM_PATH_MAP.get(title, None))`. -/
def sessionGroup (s : Session) : String × String × String × String :=
  let rp := classify_fclm_session s.title
  match rp with
  | some r =>
    let mapping := match dictGet FCLM_PATH_MAP r with
                   | some m => some m
                   | none => dictGet FCLM_PATH_MAP s.title
    let area := match mapping with | some m => m.area | none => "CRET"
    let role := match mapping with | some m => m.role | none => "Water Spider"
    (r, "INDIRECT", area, role)
  | none =>
    match dictGet FCLM_PATH_MAP s.title with
    | some m =>
      let label := if m.work_type = "INDIRECT" then m.role
                   else String.mk (s.title.data.take 20)
      (s.title, m.work_type, m.area, label)
    | none =>
      (s.title, "DIRECT", "--", String.mk (s.title.data.take 20))

/-- The grouping key alone: the canonical restricted path when classified,
else the exact title. -/
def sessionGroupKey (s : Session) : String :=
  match classify_fclm_session s.title with
  | some r => r
  | none => s.title

/-- The mutable state of the consolidation loop. -/
structure ConsState where
  consolidated : List (String × ConsEntry)
  display_order : List String
deriving DecidableEq, Repr

/-- One iteration of the consolidation loop. -/
def consolidateStep (st : ConsState) (s : Session) : ConsState :=
  let g := sessionGroup s
  let group_key := g.1
  let work_type := g.2.1
  let area := g.2.2.1
  let label := g.2.2.2
  let dur_mins := s.duration_minutes
  match dictGet st.consolidated group_key with
  | some entry =>
    let entry := { entry with mins := entry.mins + dur_mins }
    let s_end := s.end_
    let entry :=
      if s_end = "" then { entry with last_end := "" }       -- ACTIVE
      else if entry.last_end ≠ "" then { entry with last_end := s_end }
      else entry
    { st with consolidated := dictSet st.consolidated group_key entry }
  | none =>
    { consolidated := st.consolidated ++
        [(group_key,
          { work_type := work_type, area := area, label := label,
            mins := dur_mins, first_start := s.start, last_end := s.end_ })],
      display_order := st.display_order ++ [group_key] }

/-- The consolidation fold over all sessions. -/
def consState (sessions : List Session) : ConsState :=
  sessions.foldl consolidateStep { consolidated := [], display_order := [] }

/-- The display pass: one (key, entry) per key of `display_order`. -/
def consolidate (sessions : List Session) : List (String × ConsEntry) :=
  let st := consState sessions
  st.display_order.filterMap (fun k => (dictGet st.consolidated k).map (fun e => (k, e)))

/-- First-seen order of a key sequence (how `display_order` is built). -/
def firstSeen (ks : List String) : List String :=
  ks.foldl (fun acc k => if acc.contains k then acc else acc ++ [k]) []

/-! ## Function-rollup parsing (`FclmClient._parse_function_rollup` /
`fetch_all_path_aas`)

A `RollupTable` is one `<table>` regex fragment: its raw inner HTML
(`content`, used verbatim for the restricted-path membership test) together
with the `<td>` cell lists of its `<tr>` matches. -/

/-- One AA row of a function rollup (`hours` exact; `minutes = hours * 60`). -/
structure AssociateActivity where
  badge_id : String
  name : String
  hours : ℚ
  minutes : ℚ
deriving DecidableEq, Repr

/-- One `<table>` fragment of the rollup HTML. -/
structure RollupTable where
  content : String
  rows : List (List String)
deriving DecidableEq, Repr

/-- The descending scan `for i in range(len(cells)-1, 2, -1)` for the last
cell that parses as a number. -/
def findHoursDesc (cells : List String) : Nat → ℚ
  | 0 => 0
  | i + 1 =>
    if i + 1 ≤ 2 then 0
    else
      match pyFloat (stripHtml (cells.getD (i + 1) "")) with
      | some h => h
      | none => findHoursDesc cells i

/-- The fallback `for i in range(4, len(cells)-1)` sum of numeric middle
cells. -/
def sumMiddleCells (cells : List String) : ℚ :=
  ((List.range' 4 (cells.length - 1 - 4)).map
    (fun i => (pyFloat (stripHtml (cells.getD i ""))).getD 0)).sum

/-- Total-hours extraction for one AA row. -/
def rollupHours (cells : List String) : ℚ :=
  let hours := findHoursDesc cells (cells.length - 1)
  if hours = 0 then sumMiddleCells cells else hours

/-- One iteration of the data-row loop of `_parse_function_rollup`; the
state is the result dict together with `seen_badges` (kept as a list, in
sync with the badge ids of `result[table_path]`). -/
def processRollupRow (table_path : String)
    (st : List (String × List AssociateActivity) × List String) (cells : List String) :
    List (String × List AssociateActivity) × List String :=
  let result := st.1
  let seen := st.2
  if cells.length < 5 then st
  else
    let first := stripHtml (cells.getD 0 "")
    if ¬ (first = "AMZN" ∨ first = "TEMP") then st
    else
      let badge_id := stripHtml (cells.getD 1 "")
      if badge_id = "" ∨ ¬ badge_id.data.all Char.isDigit then st
      else if seen.contains badge_id then st
      else
        let name := stripHtml (cells.getD 2 "")
        let hours := rollupHours cells
        (dictSet result table_path
          (dictGetD result table_path [] ++
            [{ badge_id := badge_id, name := name, hours := hours, minutes := hours * 60 }]),
         seen ++ [badge_id])

/-- Processing of one `<table>` fragment. -/
def processRollupTable (process_name : String)
    (result : List (String × List AssociateActivity)) (t : RollupTable) :
    List (String × List AssociateActivity) :=
  match FCLM_RESTRICTED_PATHS.find? (fun p => strContains t.content p) with
  | none => result
  | some table_path0 =>
    -- Special handling: Water Spider from a WHD process -> WHD Waterspider
    let table_path :=
      if table_path0 = "Water Spider" ∧ strContains process_name "WHD" then "WHD Waterspider"
      else table_path0
    let result :=
      if (dictGet result table_path).isSome then result else result ++ [(table_path, [])]
    let seen := (dictGetD result table_path []).map (fun aa => aa.badge_id)
    (t.rows.foldl (processRollupRow table_path) (result, seen)).1

/-- `FclmClient._parse_function_rollup` over the table fragments of one
process's HTML. -/
def parse_function_rollup (tables : List RollupTable) (process_name : String)
    (result : List (String × List AssociateActivity)) :
    List (String × List AssociateActivity) :=
  tables.foldl (processRollupTable process_name) result

/-- Stable insertion of one element into a descending-by-hours list
(models one step of Python `list.sort(key=..., reverse=True)`). -/
def insertHoursDesc (a : AssociateActivity) : List AssociateActivity → List AssociateActivity
  | [] => [a]
  | b :: rest => if b.hours < a.hours then a :: b :: rest else b :: insertHoursDesc a rest

/-- `list.sort(key=lambda a: a["hours"], reverse=True)`. -/
def sortHoursDesc : List AssociateActivity → List AssociateActivity
  | [] => []
  | a :: rest => insertHoursDesc a (sortHoursDesc rest)

/-- `FclmClient.fetch_all_path_aas`, over the per-process fetched tables
(the network, login-page skip and per-process error collection are outside
the model; the `_errors` diagnostic key is likewise omitted since it holds
strings, not AA lists). -/
def fetch_all_path_aas (processes : List (String × List RollupTable)) :
    List (String × List AssociateActivity) :=
  let init := FCLM_RESTRICTED_PATHS.map (fun p => (p, ([] : List AssociateActivity)))
  let all_aas := processes.foldl (fun acc pr => parse_function_rollup pr.2 pr.1 acc) init
  all_aas.map (fun pe => (pe.1, sortHoursDesc pe.2))

/-! ## Authenticated request with silent refresh (`FclmClient._request`)

The network and browser cookie store are modelled as an environment: the
body the first GET returns, the body a retry would return, the cookie
`BrowserCookieReader.auto_detect` would yield, and whether a refresh
callback is registered.  The outcome records the returned body, the final
client cookie, and how many acquisitions / GETs / callback invocations
happened. -/

/-- `FclmClient._is_login_page`: Midway login-redirect heuristic. -/
def is_login_page (html : String) : Bool :=
  let lower := String.mk (html.data.map Char.toLower)
  strContains lower "midway" || strContains lower "sign in" ||
    (strContains lower "/login" && ¬ strContains html "ganttChart")

/-- `FclmClient._sanitize_cookie`: strip non-ASCII characters. -/
def sanitize_cookie (cookie : String) : String :=
  String.mk (cookie.data.filter (fun c => c.toNat < 128))

/-- Environment of one `_request` call. -/
structure RequestEnv where
  firstBody : String
  retryBody : String
  autoCookie : Option String
  hasCallback : Bool
deriving DecidableEq, Repr

/-- Observable outcome of one `_request` call. -/
structure RequestOutcome where
  body : String
  cookie : String
  acquire_count : Nat
  get_count : Nat
  callback_value : Option String
deriving DecidableEq, Repr

/-- `FclmClient._request`: authenticated GET with one-shot silent cookie
refresh on expiry.  `cookie` is the client's current credential. -/
def request (env : RequestEnv) (cookie : String) : RequestOutcome :=
  let html := env.firstBody
  if ¬ is_login_page html then
    { body := html, cookie := cookie, acquire_count := 0, get_count := 1,
      callback_value := none }
  else
    -- cookie expired: try to silently grab fresh ones (auto_detect, once)
    match env.autoCookie with
    | none =>
      { body := html, cookie := cookie, acquire_count := 1, get_count := 1,
        callback_value := none }
    | some new_cookie =>
      if new_cookie = "" then
        { body := html, cookie := cookie, acquire_count := 1, get_count := 1,
          callback_value := none }
      else
        let cookie := sanitize_cookie new_cookie
        { body := env.retryBody, cookie := cookie, acquire_count := 1, get_count := 2,
          callback_value := if env.hasCallback then some cookie else none }

/-! ## Helper lemmas: dictionaries -/

theorem dictGet_dictSet_self {α : Type} (d : List (String × α)) (k : String) (v : α) :
    dictGet (dictSet d k v) k = some v := by
  induction d with
  | nil => simp [dictGet, dictSet]
  | cons kv rest ih =>
    obtain ⟨k', v'⟩ := kv
    by_cases h : k' = k
    · simp [dictGet, dictSet, h]
    · simp [dictGet, dictSet, h, ih]

theorem dictGet_dictSet_ne {α : Type} (d : List (String × α)) (k k' : String) (v : α)
    (h : k' ≠ k) : dictGet (dictSet d k v) k' = dictGet d k' := by
  induction d with
  | nil =>
    simp only [dictSet, dictGet]
    rw [if_neg (fun hh => h hh.symm)]
  | cons kv rest ih =>
    obtain ⟨k0, v0⟩ := kv
    by_cases h0 : k0 = k
    · subst h0
      simp only [dictSet, if_pos rfl, dictGet]
      rw [if_neg (fun hh => h hh.symm), if_neg (fun hh => h hh.symm)]
    · simp only [dictSet, if_neg h0, dictGet]
      by_cases h1 : k0 = k'
      · rw [if_pos h1, if_pos h1]
      · rw [if_neg h1, if_neg h1, ih]

theorem dictGet_eq_none_iff {α : Type} (d : List (String × α)) (k : String) :
    dictGet d k = none ↔ k ∉ d.map Prod.fst := by
  induction d with
  | nil => simp [dictGet]
  | cons kv rest ih =>
    obtain ⟨k', v'⟩ := kv
    by_cases h : k' = k
    · simp [dictGet, h]
    · simp [dictGet, h, ih, Ne.symm h]

theorem dictGet_append_singleton_ne {α : Type} (d : List (String × α)) (k k' : String)
    (v : α) (h : k ≠ k') : dictGet (d ++ [(k, v)]) k' = dictGet d k' := by
  induction d with
  | nil => simp [dictGet, h]
  | cons kv rest ih =>
    obtain ⟨k0, v0⟩ := kv
    by_cases h0 : k0 = k'
    · simp [dictGet, h0]
    · simp [dictGet, h0, ih]

theorem dictGet_append_singleton_self {α : Type} (d : List (String × α)) (k : String)
    (v : α) (h : dictGet d k = none) : dictGet (d ++ [(k, v)]) k = some v := by
  induction d with
  | nil => simp [dictGet]
  | cons kv rest ih =>
    obtain ⟨k0, v0⟩ := kv
    by_cases h0 : k0 = k
    · simp [dictGet, h0] at h
    · simp only [dictGet, if_neg h0] at h
      simp [dictGet, h0, ih h]

theorem mem_dictSet {α : Type} (d : List (String × α)) (k p : String) (v w : α)
    (h : (p, w) ∈ dictSet d k v) : (p, w) ∈ d ∨ (p = k ∧ w = v) := by
  induction d with
  | nil =>
    simp [dictSet] at h
    exact Or.inr h
  | cons kv rest ih =>
    obtain ⟨k0, v0⟩ := kv
    by_cases h0 : k0 = k
    · subst h0
      simp only [dictSet, if_pos rfl] at h
      rcases List.mem_cons.mp h with h1 | h1
      · obtain ⟨hp, hw⟩ := Prod.mk.injEq .. ▸ h1
        exact Or.inr ⟨hp, hw⟩
      · exact Or.inl (List.mem_cons.mpr (Or.inr h1))
    · simp only [dictSet, if_neg h0] at h
      rcases List.mem_cons.mp h with h1 | h1
      · exact Or.inl (List.mem_cons.mpr (Or.inl h1))
      · rcases ih h1 with h2 | h2
        · exact Or.inl (List.mem_cons.mpr (Or.inr h2))
        · exact Or.inr h2

theorem dictGet_mem {α : Type} (d : List (String × α)) (k : String) (v : α)
    (h : dictGet d k = some v) : (k, v) ∈ d := by
  induction d with
  | nil => simp [dictGet] at h
  | cons kv rest ih =>
    obtain ⟨k0, v0⟩ := kv
    by_cases h0 : k0 = k
    · subst h0
      simp [dictGet] at h
      simp [h]
    · simp only [dictGet, if_neg h0] at h
      exact List.mem_cons.mpr (Or.inr (ih h))

theorem keys_dictSet_of_mem {α : Type} (d : List (String × α)) (k : String) (v : α)
    (h : k ∈ d.map Prod.fst) : (dictSet d k v).map Prod.fst = d.map Prod.fst := by
  induction d with
  | nil => simp at h
  | cons kv rest ih =>
    obtain ⟨k0, v0⟩ := kv
    by_cases h0 : k0 = k
    · simp [dictSet, h0]
    · rw [List.map_cons] at h
      have h1 : k ∈ rest.map Prod.fst := by
        rcases List.mem_cons.mp h with h1 | h1
        · exact absurd h1.symm h0
        · exact h1
      simp [dictSet, h0, ih h1]

theorem keys_dictSet_of_not_mem {α : Type} (d : List (String × α)) (k : String) (v : α)
    (h : k ∉ d.map Prod.fst) : (dictSet d k v).map Prod.fst = d.map Prod.fst ++ [k] := by
  induction d with
  | nil => simp [dictSet]
  | cons kv rest ih =>
    obtain ⟨k0, v0⟩ := kv
    simp only [List.map_cons, List.mem_cons] at h
    push_neg at h
    simp [dictSet, Ne.symm h.1, ih h.2]

theorem nodup_keys_dictSet {α : Type} (d : List (String × α)) (k : String) (v : α)
    (h : (d.map Prod.fst).Nodup) : ((dictSet d k v).map Prod.fst).Nodup := by
  by_cases hk : k ∈ d.map Prod.fst
  · rw [keys_dictSet_of_mem d k v hk]; exact h
  · rw [keys_dictSet_of_not_mem d k v hk]
    simp [List.nodup_append, h, hk]

/-! ## Helper lemmas: strings and parsing -/

theorem strContains_empty (s : String) : strContains s "" = true := by
  have : ∀ cs : List Char, (subIdx [] cs).isSome = true := by
    intro cs
    cases cs with
    | nil => simp [subIdx]
    | cons c rest => simp [subIdx, List.isPrefixOf]
  simpa [strContains] using this s.data

theorem not_whitespace_of_digit (c : Char) (h : c.isDigit = true) :
    c.isWhitespace = false := by
  revert h
  simp only [Char.isDigit, Char.isWhitespace]
  intro h
  rcases Bool.and_eq_true .. ▸ h with ⟨h1, h2⟩
  simp only [decide_eq_true_eq] at h1 h2
  apply Bool.or_eq_false_iff.mpr
  refine ⟨Bool.or_eq_false_iff.mpr ⟨Bool.or_eq_false_iff.mpr ⟨?_, ?_⟩, ?_⟩, ?_⟩ <;>
    · simp only [decide_eq_false_iff_not]
      intro hc
      subst hc
      revert h1 h2
      decide

theorem digit_ne_of (c c' : Char) (h : c.isDigit = true) (h' : c'.isDigit = false) :
    c ≠ c' := by
  intro he
  subst he
  rw [h] at h'
  exact Bool.noConfusion h'

theorem dropWhile_ws_of_all_digits (cs : List Char) (h : cs.all Char.isDigit = true) :
    cs.dropWhile Char.isWhitespace = cs := by
  cases cs with
  | nil => rfl
  | cons c rest =>
    have hc : c.isDigit = true := by
      have := List.all_eq_true.mp h c (List.mem_cons_self c rest)
      exact this
    simp [List.dropWhile_cons, not_whitespace_of_digit c hc]

theorem pyStrip_of_all_digits (cs : List Char) (h : cs.all Char.isDigit = true) :
    pyStrip (String.mk cs) = String.mk cs := by
  have hrev : cs.reverse.all Char.isDigit = true := by
    simp only [List.all_eq_true] at h ⊢
    intro c hc
    exact h c (List.mem_reverse.mp hc)
  simp [pyStrip, dropWhile_ws_of_all_digits cs h,
        dropWhile_ws_of_all_digits cs.reverse hrev]

theorem pyInt_digits (cs : List Char) (hne : cs ≠ []) (h : cs.all Char.isDigit = true) :
    pyInt (String.mk cs) = some (digitsVal cs : Int) := by
  have hhead : ∀ c rest, cs = c :: rest → c.isDigit = true := by
    intro c rest hc
    subst hc
    exact List.all_eq_true.mp h c (List.mem_cons_self c rest)
  unfold pyInt
  rw [pyStrip_of_all_digits cs h]
  cases cs with
  | nil => exact absurd rfl hne
  | cons c rest =>
    have hc := hhead c rest rfl
    have hminus : c ≠ '-' := digit_ne_of c '-' hc (by decide)
    have hplus : c ≠ '+' := digit_ne_of c '+' hc (by decide)
    have hrest : ∀ x ∈ rest, x.isDigit = true := fun x hx =>
      List.all_eq_true.mp h x (List.mem_cons_of_mem c hx)
    simp [hminus, hplus, hc]
    exact hrest

theorem splitOnChar_ne_nil (sep : Char) (cs : List Char) : splitOnChar sep cs ≠ [] := by
  cases cs with
  | nil => simp [splitOnChar]
  | cons c rest =>
    simp only [splitOnChar]
    cases h : splitOnChar sep rest with
    | nil => by_cases hc : c = sep <;> simp [hc]
    | cons hh tt => by_cases hc : c = sep <;> simp [hc]

theorem splitOnChar_of_not_mem (sep : Char) (cs : List Char) (h : sep ∉ cs) :
    splitOnChar sep cs = [cs] := by
  induction cs with
  | nil => rfl
  | cons c rest ih =>
    simp only [List.mem_cons] at h
    push_neg at h
    simp only [splitOnChar, ih h.2]
    rw [if_neg (fun hc => h.1 hc.symm)]

theorem splitOnChar_append (sep : Char) (xs ys : List Char) (h : sep ∉ xs) :
    splitOnChar sep (xs ++ sep :: ys) = xs :: splitOnChar sep ys := by
  induction xs with
  | nil =>
    simp only [List.nil_append, splitOnChar]
    cases hy : splitOnChar sep ys with
    | nil => exact absurd hy (splitOnChar_ne_nil sep ys)
    | cons hh tt => simp
  | cons x rest ih =>
    simp only [List.mem_cons] at h
    push_neg at h
    simp only [List.cons_append, splitOnChar]
    rw [List.append_eq, ih h.2]
    show (if x = sep then [] :: rest :: splitOnChar sep ys
          else (x :: rest) :: splitOnChar sep ys) = (x :: rest) :: splitOnChar sep ys
    rw [if_neg (fun hc => h.1 hc.symm)]

theorem digit_not_colon (cs : List Char) (h : cs.all Char.isDigit = true) :
    ':' ∉ cs := by
  intro hc
  have := List.all_eq_true.mp h ':' hc
  exact absurd this (by decide)

/-! ## Claim C10: titles normalizing to the empty string -/

/-- **C10** For every non-empty title normalizing to the empty string (for
example one consisting only of spaces and underscores), `classify_fclm_session`
returns the first configured restricted path, "Vreturns WaterSpider", because
the empty normalized title is a substring of every configured path name. -/
theorem claim_C10 (title : String) (h1 : title ≠ "") (h2 : normalizeLower title = "") :
    classify_fclm_session title = some "Vreturns WaterSpider" := by
  unfold classify_fclm_session
  rw [if_neg h1]
  simp only [h2]
  have : findPathMatch "" title FCLM_RESTRICTED_PATHS = some "Vreturns WaterSpider" := by
    simp [findPathMatch, FCLM_RESTRICTED_PATHS, strContains_empty]
  rw [this]

/-- Witness for C10 at the concrete titles " " and "_". -/
theorem claim_C10_witness :
    classify_fclm_session " " = some "Vreturns WaterSpider"
    ∧ classify_fclm_session "_" = some "Vreturns WaterSpider" :=
  ⟨claim_C10 " " (by decide) (by decide), claim_C10 "_" (by decide) (by decide)⟩

/-! ## Claim C5: duration parsing -/

/-- **C5** For every duration string formatted "MM:SS" with digit minute and
second parts, `_parse_fclm_duration` returns `MM + SS/60`; malformed input
(no colon, or a minute/second part that `int()` rejects) yields 0. -/
theorem claim_C5 (d : String) :
    (∀ m s : List Char, m ≠ [] → s ≠ [] →
      m.all Char.isDigit = true → s.all Char.isDigit = true →
      d.data = m ++ ':' :: s →
      parse_fclm_duration d = (digitsVal m : ℚ) + (digitsVal s : ℚ) / 60)
    ∧ (':' ∉ d.data → parse_fclm_duration d = 0)
    ∧ (∀ p0 p1 rest, splitOnChar ':' d.data = p0 :: p1 :: rest →
        pyInt (String.mk p0) = none ∨ pyInt (String.mk p1) = none →
        parse_fclm_duration d = 0) := by
  refine ⟨?_, ?_, ?_⟩
  · intro m s hm hs hmd hsd hdata
    have hdne : d ≠ "" := by
      intro he
      rw [he] at hdata
      exact absurd hdata.symm (by cases m <;> simp)
    unfold parse_fclm_duration
    rw [if_neg hdne, hdata, splitOnChar_append ':' m s (digit_not_colon m hmd),
        splitOnChar_of_not_mem ':' s (digit_not_colon s hsd)]
    simp only [List.map_cons, List.map_nil, List.length_cons, List.length_nil]
    rw [if_pos (by omega)]
    simp only [List.getD_cons_zero, List.getD_cons_succ]
    rw [pyInt_digits m hm hmd, pyInt_digits s hs hsd]
    push_cast
    ring
  · intro hnc
    unfold parse_fclm_duration
    by_cases hd : d = ""
    · rw [if_pos hd]
    · rw [if_neg hd, splitOnChar_of_not_mem ':' d.data hnc]
      simp
  · intro p0 p1 rest hsplit hnone
    have hdne : d ≠ "" := by
      intro he
      rw [he] at hsplit
      simp [splitOnChar] at hsplit
    unfold parse_fclm_duration
    rw [if_neg hdne, hsplit]
    simp only [List.map_cons, List.length_cons, ge_iff_le]
    rw [if_pos (by omega)]
    simp only [List.getD_cons_zero, List.getD_cons_succ]
    rcases hnone with h0 | h1
    · rw [h0]
    · rw [h1]
      cases pyInt (String.mk p0) <;> rfl

/-- Witness for C5: "210:35" parses to 210 + 35/60; "abc" (no colon) and
"1:x" (non-numeric seconds) yield 0. -/
theorem claim_C5_witness :
    parse_fclm_duration "210:35" = (210 : ℚ) + 35 / 60
    ∧ parse_fclm_duration "abc" = 0
    ∧ parse_fclm_duration "1:x" = 0 :=
  ⟨by
    have := (claim_C5 "210:35").1 "210".data "35".data (by decide) (by decide)
      (by decide) (by decide) (by decide)
    simpa using this,
   (claim_C5 "abc").2.1 (by decide),
   (claim_C5 "1:x").2.2 "1".data "x".data [] (by decide) (Or.inr (by decide))⟩

/-! ## Claim C1: PATH_SWITCH has priority -/

/-- **C1** Whenever the target work code resolves to a canonical path and
the per-path time map contains any worked path different from it,
`check_mpv_risk` reports risk with reason PATH_SWITCH — regardless of the
minutes on that other path (the switch check fires before the
time-exceeded check). -/
theorem claim_C1 (sessions : List Session) (tcode tp : String)
    (hres : resolve_work_code tcode = some tp)
    (hdiff : ∃ wp ∈ (compute_fclm_path_times sessions).map Prod.fst, wp ≠ tp) :
    (check_mpv_risk sessions tcode).has_risk = true
    ∧ (check_mpv_risk sessions tcode).reason = some "PATH_SWITCH" := by
  obtain ⟨wp0, hmem, hne⟩ := hdiff
  obtain ⟨w, hf⟩ : ∃ w, ((compute_fclm_path_times sessions).map Prod.fst).find?
      (fun wp => wp != tp) = some w := by
    cases hfind : ((compute_fclm_path_times sessions).map Prod.fst).find?
        (fun wp => wp != tp) with
    | none =>
      exact absurd (by simpa using List.find?_eq_none.mp hfind wp0 hmem) hne
    | some w => exact ⟨w, rfl⟩
  simp only [check_mpv_risk, hres, hf]
  exact ⟨trivial, trivial⟩

/-- Witness for C1: ten minutes on a different restricted path blocks the
switch to C-Returns_EndofLine. -/
theorem claim_C1_witness :
    (check_mpv_risk
      [{ title := "Water Spider", start := "18:00", end_ := "18:10",
         duration := "10:00", duration_minutes := 10, row_type := "job" }]
      "CREOL").has_risk = true
    ∧ (check_mpv_risk
      [{ title := "Water Spider", start := "18:00", end_ := "18:10",
         duration := "10:00", duration_minutes := 10, row_type := "job" }]
      "CREOL").reason = some "PATH_SWITCH" :=
  claim_C1 _ "CREOL" "C-Returns_EndofLine" (by decide)
    ⟨"Vreturns WaterSpider", by with_unfolding_all decide, by decide⟩

/-! ## Claim C2: TIME_EXCEEDED threshold and remaining minutes -/

/-- **C2** When every worked path equals the resolved target path: at 270
accumulated minutes or more the result is TIME_EXCEEDED; strictly between 0
and 270 there is no risk and `remaining_minutes = 270 - accumulated`; at
269 the remaining budget is exactly 1. -/
theorem claim_C2 (sessions : List Session) (tcode tp : String)
    (hres : resolve_work_code tcode = some tp)
    (hall : ∀ wp ∈ (compute_fclm_path_times sessions).map Prod.fst, wp = tp) :
    (dictGetD (compute_fclm_path_times sessions) tp 0 ≥ 270 →
      (check_mpv_risk sessions tcode).has_risk = true
      ∧ (check_mpv_risk sessions tcode).reason = some "TIME_EXCEEDED")
    ∧ (0 < dictGetD (compute_fclm_path_times sessions) tp 0 →
       dictGetD (compute_fclm_path_times sessions) tp 0 < 270 →
      (check_mpv_risk sessions tcode).has_risk = false
      ∧ (check_mpv_risk sessions tcode).remaining_minutes =
          some (270 - dictGetD (compute_fclm_path_times sessions) tp 0))
    ∧ (dictGetD (compute_fclm_path_times sessions) tp 0 = 269 →
      (check_mpv_risk sessions tcode).has_risk = false
      ∧ (check_mpv_risk sessions tcode).remaining_minutes = some 1) := by
  have hfind : ((compute_fclm_path_times sessions).map Prod.fst).find?
      (fun wp => wp != tp) = none := by
    apply List.find?_eq_none.mpr
    intro wp hwp
    simp [hall wp hwp]
  constructor
  · intro hge
    have hge' : dictGetD (compute_fclm_path_times sessions) tp 0 ≥ MPV_MAX_TIME_MINUTES := hge
    simp only [check_mpv_risk, hres, hfind]
    rw [if_pos hge']
    exact ⟨rfl, rfl⟩
  constructor
  · intro hpos hlt
    have hlt' : ¬ dictGetD (compute_fclm_path_times sessions) tp 0 ≥ MPV_MAX_TIME_MINUTES := by
      show ¬ dictGetD (compute_fclm_path_times sessions) tp 0 ≥ 270
      exact not_le.mpr hlt
    simp only [check_mpv_risk, hres, hfind]
    rw [if_neg hlt', if_pos hpos]
    exact ⟨rfl, rfl⟩
  · intro h269
    have h1 : (0 : ℚ) < dictGetD (compute_fclm_path_times sessions) tp 0 := by
      rw [h269]; norm_num
    have h2 : ¬ dictGetD (compute_fclm_path_times sessions) tp 0 ≥ MPV_MAX_TIME_MINUTES := by
      show ¬ dictGetD (compute_fclm_path_times sessions) tp 0 ≥ 270
      rw [h269]; norm_num
    simp only [check_mpv_risk, hres, hfind]
    rw [if_neg h2, if_pos h1]
    refine ⟨rfl, ?_⟩
    show some (MPV_MAX_TIME_MINUTES - dictGetD (compute_fclm_path_times sessions) tp 0)
        = some 1
    rw [h269]
    norm_num [MPV_MAX_TIME_MINUTES]

/-- Witness for C2: 269 minutes on the target path leaves 1 remaining
minute; 270 minutes is TIME_EXCEEDED. -/
theorem claim_C2_witness :
    ((check_mpv_risk
      [{ title := "Vreturns WaterSpider", start := "", end_ := "",
         duration := "269:00", duration_minutes := 269, row_type := "job" }]
      "VRWS").has_risk = false
    ∧ (check_mpv_risk
      [{ title := "Vreturns WaterSpider", start := "", end_ := "",
         duration := "269:00", duration_minutes := 269, row_type := "job" }]
      "VRWS").remaining_minutes = some 1)
    ∧ ((check_mpv_risk
      [{ title := "Vreturns WaterSpider", start := "", end_ := "",
         duration := "270:00", duration_minutes := 270, row_type := "job" }]
      "VRWS").has_risk = true
    ∧ (check_mpv_risk
      [{ title := "Vreturns WaterSpider", start := "", end_ := "",
         duration := "270:00", duration_minutes := 270, row_type := "job" }]
      "VRWS").reason = some "TIME_EXCEEDED") :=
  ⟨(claim_C2 _ "VRWS" "Vreturns WaterSpider" (by decide)
      (by with_unfolding_all decide)).2.2 (by with_unfolding_all decide),
   (claim_C2 _ "VRWS" "Vreturns WaterSpider" (by decide)
      (by with_unfolding_all decide)).1 (by with_unfolding_all decide)⟩

/-! ## Claim C7 (corrected): path-time map values -/

/-- **C7, counterexample to the claim as stated**: a session list is any
list of session dicts, and `compute_fclm_path_times` sums whatever
`duration_minutes` they carry — a session with a negative duration (which
`_parse_fclm_duration` itself can produce, e.g. from "-5:00") yields a
negative map value. -/
theorem claim_C7_counterexample :
    dictGet (compute_fclm_path_times
      [{ title := "Water Spider", start := "", end_ := "", duration := "-5:00",
         duration_minutes := -5, row_type := "job" }]) "Vreturns WaterSpider"
      = some (-5)
    ∧ ((-5 : ℚ) < 0)
    ∧ parse_fclm_duration "-5:00" = -5 := by
  refine ⟨by with_unfolding_all decide, by norm_num, by with_unfolding_all decide⟩

/-- **C7 as amended**: if every session's `duration_minutes` is
non-negative, every value of the per-path map is non-negative; and a path
to which no session classifies is absent from the map (never present with
value zero). -/
theorem claim_C7_amended (sessions : List Session) :
    ((∀ s ∈ sessions, 0 ≤ s.duration_minutes) →
      ∀ p v, (p, v) ∈ compute_fclm_path_times sessions → 0 ≤ v)
    ∧ (∀ p, (∀ s ∈ sessions, classify_fclm_session s.title ≠ some p) →
        dictGet (compute_fclm_path_times sessions) p = none) := by
  constructor
  · induction sessions using List.reverseRecOn with
    | nil =>
      intro hnn p v hmem
      simp [compute_fclm_path_times] at hmem
    | append_singleton l s ih =>
      intro hnn p v hmem
      rw [compute_fclm_path_times, List.foldl_append, List.foldl_cons, List.foldl_nil]
        at hmem
      have hl : ∀ s' ∈ l, 0 ≤ s'.duration_minutes := fun s' hs' =>
        hnn s' (List.mem_append.mpr (Or.inl hs'))
      have hs : 0 ≤ s.duration_minutes :=
        hnn s (List.mem_append.mpr (Or.inr (List.mem_singleton.mpr rfl)))
      have ihl : ∀ p' v', (p', v') ∈ compute_fclm_path_times l → 0 ≤ v' := by
        intro p' v' hm'
        exact ih hl p' v' hm'
      rw [← compute_fclm_path_times] at hmem
      cases hcl : classify_fclm_session s.title with
      | none =>
        rw [hcl] at hmem
        exact ihl p v hmem
      | some rp =>
        rw [hcl] at hmem
        rcases mem_dictSet _ _ _ _ _ hmem with hin | ⟨hp, hv⟩
        · exact ihl p v hin
        · subst hv
          unfold dictGetD
          cases hg : dictGet (compute_fclm_path_times l) rp with
          | none => simpa using hs
          | some w =>
            have : 0 ≤ w := ihl rp w (dictGet_mem _ _ _ hg)
            simp only [Option.getD_some]
            exact add_nonneg this hs
  · intro p hnone
    induction sessions using List.reverseRecOn with
    | nil => rfl
    | append_singleton l s ih =>
      rw [compute_fclm_path_times, List.foldl_append, List.foldl_cons, List.foldl_nil,
          ← compute_fclm_path_times]
      have hl : ∀ s' ∈ l, classify_fclm_session s'.title ≠ some p := fun s' hs' =>
        hnone s' (List.mem_append.mpr (Or.inl hs'))
      have hs : classify_fclm_session s.title ≠ some p :=
        hnone s (List.mem_append.mpr (Or.inr (List.mem_singleton.mpr rfl)))
      cases hcl : classify_fclm_session s.title with
      | none => exact ih hl
      | some rp =>
        have hrp : rp ≠ p := fun he => hs (by rw [hcl, he])
        rw [dictGet_dictSet_ne _ _ _ _ (fun he => hrp he.symm)]
        exact ih hl

/-- Witness for C7 as amended, at a one-session list with 10 non-negative
minutes on a classified title. -/
theorem claim_C7_witness :
    (∀ p v, (p, v) ∈ compute_fclm_path_times
      [{ title := "Water Spider", start := "", end_ := "", duration := "10:00",
         duration_minutes := 10, row_type := "job" }] → 0 ≤ v)
    ∧ dictGet (compute_fclm_path_times
      [{ title := "Water Spider", start := "", end_ := "", duration := "10:00",
         duration_minutes := 10, row_type := "job" }]) "C-Returns_EndofLine" = none :=
  ⟨(claim_C7_amended _).1 (by with_unfolding_all decide),
   (claim_C7_amended _).2 "C-Returns_EndofLine" (by decide)⟩

/-! ## Claim C6: one-shot silent credential refresh -/

/-- **C6** On a login-page first response, `_request` invokes cookie
acquisition exactly once; with a fresh cookie it sanitizes and installs it,
invokes the refresh callback (when registered) with the sanitized value and
retries exactly once with no further refresh attempt; with no fresh cookie
it returns the original login-page body unchanged. -/
theorem claim_C6 (env : RequestEnv) (cookie : String)
    (h : is_login_page env.firstBody = true) :
    (request env cookie).acquire_count = 1
    ∧ (∀ nc, env.autoCookie = some nc → nc ≠ "" →
        (request env cookie).cookie = sanitize_cookie nc
        ∧ (request env cookie).body = env.retryBody
        ∧ (request env cookie).get_count = 2
        ∧ (request env cookie).callback_value =
            (if env.hasCallback then some (sanitize_cookie nc) else none))
    ∧ ((env.autoCookie = none ∨ env.autoCookie = some "") →
        (request env cookie).body = env.firstBody
        ∧ (request env cookie).cookie = cookie
        ∧ (request env cookie).get_count = 1) := by
  cases hac : env.autoCookie with
  | none =>
    have hr : request env cookie =
        { body := env.firstBody, cookie := cookie, acquire_count := 1, get_count := 1,
          callback_value := none } := by
      simp [request, h, hac]
    rw [hr]
    refine ⟨rfl, ?_, fun _ => ⟨rfl, rfl, rfl⟩⟩
    intro nc hnc
    exact absurd hnc (by simp)
  | some nc0 =>
    by_cases h0 : nc0 = ""
    · subst h0
      have hr : request env cookie =
          { body := env.firstBody, cookie := cookie, acquire_count := 1, get_count := 1,
            callback_value := none } := by
        simp [request, h, hac]
      rw [hr]
      refine ⟨rfl, ?_, fun _ => ⟨rfl, rfl, rfl⟩⟩
      intro nc hnc hne
      rw [Option.some.injEq] at hnc
      exact absurd hnc.symm hne
    · have hr : request env cookie =
          { body := env.retryBody, cookie := sanitize_cookie nc0, acquire_count := 1,
            get_count := 2,
            callback_value := if env.hasCallback then some (sanitize_cookie nc0) else none } := by
        simp [request, h, hac, h0]
      rw [hr]
      refine ⟨rfl, ?_, ?_⟩
      · intro nc hnc hne
        rw [Option.some.injEq] at hnc
        subst hnc
        exact ⟨rfl, rfl, rfl, rfl⟩
      · intro hcontra
        rcases hcontra with h1 | h1
        · exact absurd h1 (by simp)
        · rw [Option.some.injEq] at h1
          exact absurd h1 h0

/-- Witness for C6: a login-page first body, a fresh cookie containing a
non-ASCII ellipsis (sanitized away), and a registered callback. -/
theorem claim_C6_witness :
    (request ⟨"please sign in", "ganttChart ok", some "session=abc…tail", true⟩
      "old").acquire_count = 1
    ∧ (request ⟨"please sign in", "ganttChart ok", some "session=abc…tail", true⟩
      "old").cookie = "session=abctail"
    ∧ (request ⟨"please sign in", "ganttChart ok", some "session=abc…tail", true⟩
      "old").get_count = 2 := by
  have h := claim_C6
    ⟨"please sign in", "ganttChart ok", some "session=abc…tail", true⟩ "old" (by decide)
  refine ⟨h.1, ?_, (h.2.1 "session=abc…tail" rfl (by decide)).2.2.1⟩
  have hc := (h.2.1 "session=abc…tail" rfl (by decide)).1
  rw [hc]
  decide

/-! ## Structure of one `_parse_time_details` loop iteration -/

/-- Case analysis of `processRow`: a row is either skipped or accumulated
into the function-seg totals (leaving sessions, current activity and the
clocked-in flag untouched), or it appends exactly one session of row type
"job" or "other", updating the current activity and clocked-in flag exactly
when its end text is empty or whitespace. -/
theorem processRow_shape (st : ParseLoopState) (r : RawRow) :
    ((processRow st r).sessions = st.sessions
     ∧ (processRow st r).current_activity = st.current_activity
     ∧ (processRow st r).is_clocked_in = st.is_clocked_in
     ∧ ((processRow st r).func_seg_totals = st.func_seg_totals
        ∨ ∃ t dm, (processRow st r).func_seg_totals
            = dictSet st.func_seg_totals t (dictGetD st.func_seg_totals t 0 + dm)))
    ∨ (∃ sess : Session,
        (processRow st r).sessions = st.sessions ++ [sess]
        ∧ (processRow st r).func_seg_totals = st.func_seg_totals
        ∧ (sess.row_type = "job" ∨ sess.row_type = "other")
        ∧ (((sess.end_ = "" ∨ pyStrip sess.end_ = "")
              ∧ (processRow st r).current_activity = some sess
              ∧ (processRow st r).is_clocked_in = true)
           ∨ (¬(sess.end_ = "" ∨ pyStrip sess.end_ = "")
              ∧ (processRow st r).current_activity = st.current_activity
              ∧ (processRow st r).is_clocked_in = st.is_clocked_in))) := by
  simp only [processRow]
  split
  · exact Or.inl ⟨rfl, rfl, rfl, Or.inl rfl⟩
  · split
    · exact Or.inl ⟨rfl, rfl, rfl, Or.inl rfl⟩
    · split
      · exact Or.inl ⟨rfl, rfl, rfl, Or.inl rfl⟩
      · split
        · exact Or.inl ⟨rfl, rfl, rfl, Or.inr ⟨_, _, rfl⟩⟩
        · split
          · next h5 =>
            refine Or.inr ⟨_, rfl, rfl, ?_, Or.inl ⟨?_, rfl, rfl⟩⟩
            · dsimp only
              split
              · exact Or.inl rfl
              · exact Or.inr rfl
            · dsimp only
              simpa using h5
          · next h5 =>
            refine Or.inr ⟨_, rfl, rfl, ?_, Or.inr ⟨?_, rfl, rfl⟩⟩
            · dsimp only
              split
              · exact Or.inl rfl
              · exact Or.inr rfl
            · dsimp only
              simpa using h5

/-- Unfolding of `parseLoop` over a snoc. -/
theorem parseLoop_concat (rows : List RawRow) (r : RawRow) :
    parseLoop (rows ++ [r]) = processRow (parseLoop rows) r := by
  rw [parseLoop, List.foldl_append, List.foldl_cons, List.foldl_nil, ← parseLoop]

/-- Every session retained by the row loop has row type "job" or "other"
(never "correction"). -/
theorem parseLoop_row_type (rows : List RawRow) :
    ∀ s ∈ (parseLoop rows).sessions, s.row_type = "job" ∨ s.row_type = "other" := by
  induction rows using List.reverseRecOn with
  | nil =>
    intro s hs
    simp [parseLoop] at hs
  | append_singleton l r ih =>
    intro s hs
    rw [parseLoop_concat] at hs
    rcases processRow_shape (parseLoop l) r with ⟨hs', _, _, _⟩ | ⟨sess, hs', _, hrt, _⟩
    · rw [hs'] at hs
      exact ih s hs
    · rw [hs'] at hs
      rcases List.mem_append.mp hs with h | h
      · exact ih s h
      · rw [List.mem_singleton.mp h]
        exact hrt

/-- The function-seg totals dict has pairwise-distinct keys. -/
theorem parseLoop_func_nodup (rows : List RawRow) :
    (((parseLoop rows).func_seg_totals).map Prod.fst).Nodup := by
  induction rows using List.reverseRecOn with
  | nil => simp [parseLoop]
  | append_singleton l r ih =>
    rw [parseLoop_concat]
    rcases processRow_shape (parseLoop l) r with ⟨_, _, _, hf⟩ | ⟨sess, _, hf, _, _⟩
    · rcases hf with hf | ⟨t, dm, hf⟩
      · rw [hf]; exact ih
      · rw [hf]; exact nodup_keys_dictSet _ _ _ ih
    · rw [hf]; exact ih

/-! ## Claim C3: the reconciliation correction -/

/-- Correction sessions generated from titles other than `title` never pass
the filter. -/
theorem correction_filter_not_mem (d jobT : List (String × ℚ)) (title : String)
    (h : title ∉ d.map Prod.fst) :
    (correctionSessions d jobT).filter
      (fun s => s.row_type = "correction" && s.title = title) = [] := by
  induction d with
  | nil => rfl
  | cons kv rest ih =>
    obtain ⟨k, v⟩ := kv
    simp only [List.map_cons, List.mem_cons] at h
    push_neg at h
    have ih' := ih h.2
    simp only [correctionSessions] at ih'
    simp only [correctionSessions, List.filterMap_cons]
    by_cases hv : v > dictGetD jobT k 0
    · rw [if_pos hv]
      dsimp only
      have hpred : ¬ ((fun s => s.row_type = "correction" && s.title = title)
          ({ title := k, start := "", end_ := "",
             duration := corrDurationText (v - dictGetD jobT k 0),
             duration_minutes := v - dictGetD jobT k 0,
             row_type := "correction" } : Session)) = true := by
        simp
        exact fun hh => h.1 hh.symm
      rw [@List.filter_cons_of_neg _
        (fun s : Session => decide (s.row_type = "correction") && decide (s.title = title)) _ _ hpred]
      exact ih'
    · rw [if_neg hv]
      exact ih'

/-- With distinct keys, the title's correction is the unique filtered
session, carrying exactly the positive difference. -/
theorem correction_filter_mem (d jobT : List (String × ℚ)) (title : String) (f : ℚ)
    (hnd : (d.map Prod.fst).Nodup) (hget : dictGet d title = some f)
    (hgt : f > dictGetD jobT title 0) :
    (correctionSessions d jobT).filter
      (fun s => s.row_type = "correction" && s.title = title)
    = [{ title := title, start := "", end_ := "",
         duration := corrDurationText (f - dictGetD jobT title 0),
         duration_minutes := f - dictGetD jobT title 0,
         row_type := "correction" }] := by
  induction d with
  | nil => simp [dictGet] at hget
  | cons kv rest ih =>
    obtain ⟨k, v⟩ := kv
    rw [List.map_cons, List.nodup_cons] at hnd
    by_cases hk : k = title
    · subst hk
      rw [dictGet, if_pos rfl, Option.some.injEq] at hget
      subst hget
      simp only [correctionSessions, List.filterMap_cons]
      rw [if_pos hgt]
      have hpred : ((fun s => s.row_type = "correction" && s.title = k)
          ({ title := k, start := "", end_ := "",
             duration := corrDurationText (v - dictGetD jobT k 0),
             duration_minutes := v - dictGetD jobT k 0,
             row_type := "correction" } : Session)) = true := by
        simp
      dsimp only
      rw [@List.filter_cons_of_pos _
        (fun s : Session => decide (s.row_type = "correction") && decide (s.title = k)) _ _ hpred]
      have hrest := correction_filter_not_mem rest jobT k hnd.1
      simp only [correctionSessions] at hrest
      rw [hrest]
    · rw [dictGet, if_neg hk] at hget
      have ih' := ih hnd.2 hget
      simp only [correctionSessions] at ih'
      simp only [correctionSessions, List.filterMap_cons]
      by_cases hv : v > dictGetD jobT k 0
      · rw [if_pos hv]
        dsimp only
        have hpred : ¬ ((fun s => s.row_type = "correction" && s.title = title)
            ({ title := k, start := "", end_ := "",
               duration := corrDurationText (v - dictGetD jobT k 0),
               duration_minutes := v - dictGetD jobT k 0,
               row_type := "correction" } : Session)) = true := by
          simp [hk]
        rw [@List.filter_cons_of_neg _
          (fun s : Session => decide (s.row_type = "correction") && decide (s.title = title)) _ _ hpred]
        exact ih'
      · rw [if_neg hv]
        exact ih'

/-- **C3** For every extracted row list and every title whose function-seg
total exceeds the summed job-seg total, the parsed result contains exactly
one synthetic session of row type "correction" for that title, with empty
start and end and `duration_minutes` equal to the positive difference. -/
theorem claim_C3 (rows : List RawRow) (eid title : String) (f : ℚ)
    (hget : dictGet (parseLoop rows).func_seg_totals title = some f)
    (hgt : f > dictGetD (job_seg_totals (parseLoop rows).sessions) title 0) :
    ((parse_time_details rows eid).sessions.filter
      (fun s => s.row_type = "correction" && s.title = title))
    = [{ title := title, start := "", end_ := "",
         duration := corrDurationText
           (f - dictGetD (job_seg_totals (parseLoop rows).sessions) title 0),
         duration_minutes :=
           f - dictGetD (job_seg_totals (parseLoop rows).sessions) title 0,
         row_type := "correction" }] := by
  have hloop : ((parseLoop rows).sessions.filter
      (fun s => s.row_type = "correction" && s.title = title)) = [] := by
    rw [List.filter_eq_nil_iff]
    intro s hs
    rcases parseLoop_row_type rows s hs with h | h <;> simp [h]
  simp only [parse_time_details]
  rw [List.filter_append, hloop, List.nil_append]
  exact correction_filter_mem _ _ title f (parseLoop_func_nodup rows) hget hgt

/-- Witness for C3: two "Water Spider" job segments of 70 and 60 minutes
plus a function-seg total of 170 minutes yield one 40-minute correction,
and the reconciled per-title total is 170. -/
theorem claim_C3_witness :
    ((parse_time_details
        [⟨"job-seg", false, ["x", "Water Spider", "18:00", "19:10", "70:00"]⟩,
         ⟨"job-seg", false, ["x", "Water Spider", "19:10", "20:10", "60:00"]⟩,
         ⟨"function-seg", false, ["Water Spider", "", "", "170:00"]⟩] "E").sessions.filter
      (fun s => s.row_type = "correction" && s.title = "Water Spider"))
    = [{ title := "Water Spider", start := "", end_ := "", duration := "40:00",
         duration_minutes := 40, row_type := "correction" }]
    ∧ (((parse_time_details
        [⟨"job-seg", false, ["x", "Water Spider", "18:00", "19:10", "70:00"]⟩,
         ⟨"job-seg", false, ["x", "Water Spider", "19:10", "20:10", "60:00"]⟩,
         ⟨"function-seg", false, ["Water Spider", "", "", "170:00"]⟩] "E").sessions.filter
      (fun s => s.title = "Water Spider")).map Session.duration_minutes).sum = 170 := by
  constructor
  · rw [claim_C3
      [⟨"job-seg", false, ["x", "Water Spider", "18:00", "19:10", "70:00"]⟩,
       ⟨"job-seg", false, ["x", "Water Spider", "19:10", "20:10", "60:00"]⟩,
       ⟨"function-seg", false, ["Water Spider", "", "", "170:00"]⟩] "E" "Water Spider" 170
      (by with_unfolding_all decide) (by with_unfolding_all decide)]
    with_unfolding_all decide
  · with_unfolding_all decide

/-! ## Claim C4 (corrected): the current activity is the last open record -/

/-- The row loop's current activity is the *last* retained session whose end
text is empty (or whitespace), and the clocked-in flag records whether any
such session exists. -/
theorem parseLoop_open_invariant (rows : List RawRow) :
    (parseLoop rows).current_activity
      = ((parseLoop rows).sessions.filter
          (fun s => s.end_ = "" || pyStrip s.end_ = "")).getLast?
    ∧ (parseLoop rows).is_clocked_in
      = !((parseLoop rows).sessions.filter
          (fun s => s.end_ = "" || pyStrip s.end_ = "")).isEmpty := by
  induction rows using List.reverseRecOn with
  | nil => exact ⟨rfl, rfl⟩
  | append_singleton l r ih =>
    rw [parseLoop_concat]
    rcases processRow_shape (parseLoop l) r with ⟨hs, hc, hik, _⟩
      | ⟨sess, hs, _, _, ⟨hopen, hc, hik⟩ | ⟨hclosed, hc, hik⟩⟩
    · rw [hs, hc, hik]
      exact ih
    · have hpred : ((fun s => s.end_ = "" || pyStrip s.end_ = "") sess) = true := by
        simpa using hopen
      rw [hs, hc, hik, List.filter_append,
          @List.filter_cons_of_pos _
            (fun s : Session => decide (s.end_ = "") || decide (pyStrip s.end_ = "")) _ _ hpred]
      constructor
      · rw [List.filter_nil, List.getLast?_concat]
      · simp
    · have hpred : ¬ ((fun s => s.end_ = "" || pyStrip s.end_ = "") sess) = true := by
        simpa using hclosed
      rw [hs, hc, hik, List.filter_append,
          @List.filter_cons_of_neg _
            (fun s : Session => decide (s.end_ = "") || decide (pyStrip s.end_ = "")) _ _ hpred,
          List.filter_nil, List.append_nil]
      exact ih

/-- **C4, counterexample to the claim as stated**: with two open job rows
"A" then "B", the first retained session is the open "A" row, yet the
retained current activity is the *last* open record "B" — the loop
overwrites `current_activity` on every open row, so it is not the first
encountered open record that is retained. -/
theorem claim_C4_counterexample :
    ((parse_time_details
        [⟨"job-seg", false, ["x", "A", "18:00", "", "10:00"]⟩,
         ⟨"job-seg", false, ["x", "B", "19:00", "", "20:00"]⟩] "E").sessions.head?).map
        Session.title = some "A"
    ∧ ((parse_time_details
        [⟨"job-seg", false, ["x", "A", "18:00", "", "10:00"]⟩,
         ⟨"job-seg", false, ["x", "B", "19:00", "", "20:00"]⟩] "E").sessions.head?).map
        Session.end_ = some ""
    ∧ ((parse_time_details
        [⟨"job-seg", false, ["x", "A", "18:00", "", "10:00"]⟩,
         ⟨"job-seg", false, ["x", "B", "19:00", "", "20:00"]⟩] "E").current_activity).map
        Session.title = some "B"
    ∧ ("B" : String) ≠ "A" := by
  refine ⟨?_, ?_, ?_, by decide⟩ <;> with_unfolding_all decide

/-- **C4 as amended**: a retained session whose end text is empty (or
whitespace-only) marks the result clocked-in, and when several open records
occur, the *last* encountered open record is the one retained as the
current activity. -/
theorem claim_C4_amended (rows : List RawRow) (eid : String) :
    ((parse_time_details rows eid).is_clocked_in = true ↔
      ∃ s ∈ (parseLoop rows).sessions, (s.end_ = "" ∨ pyStrip s.end_ = ""))
    ∧ (parse_time_details rows eid).current_activity
        = ((parseLoop rows).sessions.filter
            (fun s => s.end_ = "" || pyStrip s.end_ = "")).getLast? := by
  have hinv := parseLoop_open_invariant rows
  have hcur : (parse_time_details rows eid).current_activity
      = (parseLoop rows).current_activity := rfl
  have hik : (parse_time_details rows eid).is_clocked_in
      = (parseLoop rows).is_clocked_in := rfl
  refine ⟨?_, by rw [hcur, hinv.1]⟩
  rw [hik, hinv.2]
  simp only [Bool.not_eq_true', List.isEmpty_eq_false_iff_exists_mem]
  constructor
  · rintro ⟨s, hs⟩
    rw [List.mem_filter] at hs
    exact ⟨s, hs.1, by simpa using hs.2⟩
  · rintro ⟨s, hs, hopen⟩
    exact ⟨s, List.mem_filter.mpr ⟨hs, by simpa using hopen⟩⟩

/-- Witness for C4 as amended: one open "Water Spider" row makes the result
clocked-in with that session current. -/
theorem claim_C4_witness :
    (parse_time_details [⟨"job-seg", false, ["x", "Water Spider", "18:00", "", "10:00"]⟩]
      "E").is_clocked_in = true
    ∧ (parse_time_details [⟨"job-seg", false, ["x", "Water Spider", "18:00", "", "10:00"]⟩]
      "E").current_activity
      = ((parseLoop [⟨"job-seg", false, ["x", "Water Spider", "18:00", "", "10:00"]⟩]).sessions.filter
          (fun s => s.end_ = "" || pyStrip s.end_ = "")).getLast? := by
  have h := claim_C4_amended
    [⟨"job-seg", false, ["x", "Water Spider", "18:00", "", "10:00"]⟩] "E"
  refine ⟨h.1.mpr ?_, h.2⟩
  refine ⟨{ title := "Water Spider", start := "18:00", end_ := "", duration := "10:00",
            duration_minutes := 10, row_type := "job" }, ?_, Or.inl rfl⟩
  with_unfolding_all decide

/-! ## Claim C8: session consolidation -/

theorem sessionGroup_fst (s : Session) : (sessionGroup s).1 = sessionGroupKey s := by
  unfold sessionGroup sessionGroupKey
  cases classify_fclm_session s.title with
  | some r => rfl
  | none =>
    cases dictGet FCLM_PATH_MAP s.title with
    | some m => rfl
    | none => rfl

/-- Case analysis of one consolidation iteration: merge into an existing
entry (accumulating minutes, with the once-open-stays-open last-end rule)
or append a fresh entry and its display key. -/
theorem consolidateStep_shape (st : ConsState) (s : Session) :
    (∃ entry entry' : ConsEntry,
       dictGet st.consolidated (sessionGroupKey s) = some entry
       ∧ (consolidateStep st s).consolidated
           = dictSet st.consolidated (sessionGroupKey s) entry'
       ∧ (consolidateStep st s).display_order = st.display_order
       ∧ entry'.mins = entry.mins + s.duration_minutes
       ∧ entry'.last_end = (if s.end_ = "" then ""
            else if entry.last_end ≠ "" then s.end_ else entry.last_end))
    ∨ (∃ e : ConsEntry,
       dictGet st.consolidated (sessionGroupKey s) = none
       ∧ (consolidateStep st s).consolidated
           = st.consolidated ++ [(sessionGroupKey s, e)]
       ∧ (consolidateStep st s).display_order
           = st.display_order ++ [sessionGroupKey s]
       ∧ e.mins = s.duration_minutes
       ∧ e.last_end = s.end_) := by
  simp only [consolidateStep, sessionGroup_fst]
  cases hget : dictGet st.consolidated (sessionGroupKey s) with
  | some entry =>
    by_cases he : s.end_ = ""
    · refine Or.inl ⟨entry,
        { entry with mins := entry.mins + s.duration_minutes, last_end := "" },
        rfl, ?_, rfl, rfl, ?_⟩
      · dsimp only
        rw [if_pos he]
      · rw [if_pos he]
    · by_cases hl : entry.last_end ≠ ""
      · refine Or.inl ⟨entry,
          { entry with mins := entry.mins + s.duration_minutes, last_end := s.end_ },
          rfl, ?_, rfl, rfl, ?_⟩
        · dsimp only
          rw [if_neg he, if_pos hl]
        · rw [if_neg he, if_pos hl]
      · refine Or.inl ⟨entry,
          { entry with mins := entry.mins + s.duration_minutes },
          rfl, ?_, rfl, rfl, ?_⟩
        · dsimp only
          rw [if_neg he, if_neg hl]
        · rw [if_neg he, if_neg hl]
  | none =>
    exact Or.inr ⟨_, rfl, rfl, rfl, rfl, rfl⟩

/-- Unfolding of `consState` over a snoc. -/
theorem consState_concat (l : List Session) (s : Session) :
    consState (l ++ [s]) = consolidateStep (consState l) s := by
  rw [consState, List.foldl_append, List.foldl_cons, List.foldl_nil, ← consState]

/-- The consolidated dict's keys are exactly `display_order`, without
duplicates. -/
theorem consState_keys (l : List Session) :
    (consState l).consolidated.map Prod.fst = (consState l).display_order
    ∧ (consState l).display_order.Nodup := by
  induction l using List.reverseRecOn with
  | nil => exact ⟨rfl, List.nodup_nil⟩
  | append_singleton l s ih =>
    rw [consState_concat]
    rcases consolidateStep_shape (consState l) s with
      ⟨entry, entry', hget, hcons, horder, _, _⟩ | ⟨e, hget, hcons, horder, _, _⟩
    · have hk : sessionGroupKey s ∈ (consState l).consolidated.map Prod.fst := by
        exact List.mem_map_of_mem Prod.fst (dictGet_mem _ _ _ hget)
      rw [hcons, horder, keys_dictSet_of_mem _ _ _ hk]
      exact ih
    · have hk : sessionGroupKey s ∉ (consState l).display_order := by
        rw [← ih.1]
        exact (dictGet_eq_none_iff _ _).mp hget
      rw [hcons, horder, List.map_append]
      refine ⟨by rw [ih.1]; rfl, ?_⟩
      simp [List.nodup_append, ih.2, hk]

/-- A key is absent from the consolidated dict exactly when no processed
session groups to it. -/
theorem consState_none (l : List Session) (k : String) :
    dictGet (consState l).consolidated k = none ↔ k ∉ l.map sessionGroupKey := by
  induction l using List.reverseRecOn with
  | nil => simp [consState, dictGet]
  | append_singleton l s ih =>
    rw [consState_concat]
    rcases consolidateStep_shape (consState l) s with
      ⟨entry, entry', hget, hcons, horder, _, _⟩ | ⟨e, hget, hcons, horder, _, _⟩
    · rw [hcons]
      by_cases hk : k = sessionGroupKey s
      · subst hk
        rw [dictGet_dictSet_self]
        simp
      · rw [dictGet_dictSet_ne _ _ _ _ hk, ih, List.map_append]
        simp [hk]
    · rw [hcons]
      by_cases hk : k = sessionGroupKey s
      · subst hk
        rw [dictGet_append_singleton_self _ _ _ hget]
        simp
      · rw [dictGet_append_singleton_ne _ _ _ _ (fun hh => hk hh.symm), ih, List.map_append]
        simp [hk]

/-- Minutes accumulate per grouping key. -/
theorem consState_mins (l : List Session) :
    ∀ k e, dictGet (consState l).consolidated k = some e →
      e.mins = ((l.filter (fun s => sessionGroupKey s = k)).map
        Session.duration_minutes).sum := by
  induction l using List.reverseRecOn with
  | nil =>
    intro k e hget
    simp [consState, dictGet] at hget
  | append_singleton l s ih =>
    intro k e hget
    rw [consState_concat] at hget
    rcases consolidateStep_shape (consState l) s with
      ⟨entry, entry', hg, hcons, horder, hmins, _⟩ | ⟨e0, hg, hcons, horder, hmins, _⟩
    · rw [hcons] at hget
      by_cases hk : k = sessionGroupKey s
      · subst hk
        rw [dictGet_dictSet_self, Option.some.injEq] at hget
        subst hget
        rw [hmins, ih _ entry hg, List.filter_append]
        simp
      · rw [dictGet_dictSet_ne _ _ _ _ hk] at hget
        rw [ih k e hget, List.filter_append]
        have hne : ¬ sessionGroupKey s = k := fun hh => hk hh.symm
        simp [hne]
    · rw [hcons] at hget
      by_cases hk : k = sessionGroupKey s
      · subst hk
        rw [dictGet_append_singleton_self _ _ _ hg, Option.some.injEq] at hget
        subst hget
        have hfl : l.filter (fun s' => sessionGroupKey s' = sessionGroupKey s) = [] := by
          rw [List.filter_eq_nil_iff]
          intro a ha
          have hnm := (consState_none l _).mp hg
          simp only [decide_eq_true_eq]
          exact fun hh => hnm (hh ▸ List.mem_map_of_mem sessionGroupKey ha)
        rw [hmins, List.filter_append, hfl]
        simp
      · rw [dictGet_append_singleton_ne _ _ _ _ (fun hh => hk hh.symm)] at hget
        rw [ih k e hget, List.filter_append]
        have hne : ¬ sessionGroupKey s = k := fun hh => hk hh.symm
        simp [hne]

/-- Once a group has merged an open row, its last-end field is (and stays)
empty. -/
theorem consState_open (l : List Session) :
    ∀ k, (∃ s ∈ l, sessionGroupKey s = k ∧ s.end_ = "") →
      ∃ e, dictGet (consState l).consolidated k = some e ∧ e.last_end = "" := by
  induction l using List.reverseRecOn with
  | nil =>
    rintro k ⟨s, hs, -⟩
    simp at hs
  | append_singleton l s ih =>
    rintro k ⟨t, ht, hkey, hend⟩
    rw [consState_concat]
    rcases consolidateStep_shape (consState l) s with
      ⟨entry, entry', hg, hcons, horder, hmins, hlast⟩ | ⟨e0, hg, hcons, horder, hmins, hlast⟩
    · rw [hcons]
      by_cases hk : k = sessionGroupKey s
      · subst hk
        by_cases hse : s.end_ = ""
        · exact ⟨entry', by rw [dictGet_dictSet_self], by rw [hlast, if_pos hse]⟩
        · have htl : t ∈ l := by
            rcases List.mem_append.mp ht with h | h
            · exact h
            · rw [List.mem_singleton.mp h] at hend
              exact absurd hend hse
          obtain ⟨e1, hge1, hle1⟩ := ih _ ⟨t, htl, hkey, hend⟩
          have hee : entry = e1 := by
            rw [hg] at hge1
            exact (Option.some.injEq .. ).mp hge1
          have hle : entry.last_end = "" := by rw [hee]; exact hle1
          refine ⟨entry', by rw [dictGet_dictSet_self], ?_⟩
          rw [hlast, if_neg hse, if_neg (by rw [hle]; simp)]
          exact hle
      · have htl : t ∈ l := by
          rcases List.mem_append.mp ht with h | h
          · exact h
          · exfalso
            rw [List.mem_singleton.mp h] at hkey
            exact hk hkey.symm
        obtain ⟨e1, hge1, hle1⟩ := ih _ ⟨t, htl, hkey, hend⟩
        exact ⟨e1, by rw [dictGet_dictSet_ne _ _ _ _ hk]; exact hge1, hle1⟩
    · rw [hcons]
      by_cases hk : k = sessionGroupKey s
      · subst hk
        have hnotl : sessionGroupKey s ∉ l.map sessionGroupKey := (consState_none l _).mp hg
        have ht' : t = s := by
          rcases List.mem_append.mp ht with h | h
          · exact absurd (hkey ▸ List.mem_map_of_mem sessionGroupKey h) hnotl
          · exact List.mem_singleton.mp h
        refine ⟨e0, dictGet_append_singleton_self _ _ _ hg, ?_⟩
        rw [hlast, ← ht']
        exact hend
      · have htl : t ∈ l := by
          rcases List.mem_append.mp ht with h | h
          · exact h
          · exfalso
            rw [List.mem_singleton.mp h] at hkey
            exact hk hkey.symm
        obtain ⟨e1, hge1, hle1⟩ := ih _ ⟨t, htl, hkey, hend⟩
        refine ⟨e1, ?_, hle1⟩
        rw [dictGet_append_singleton_ne _ _ _ _ (fun hh => hk hh.symm)]
        exact hge1

theorem filterMap_congr_on {α β : Type} (l : List α) (f g : α → Option β)
    (h : ∀ a ∈ l, f a = g a) : l.filterMap f = l.filterMap g := by
  induction l with
  | nil => rfl
  | cons a rest ih =>
    rw [List.filterMap_cons, List.filterMap_cons, h a (List.mem_cons_self a rest),
        ih (fun a' ha' => h a' (List.mem_cons_of_mem a ha'))]

theorem dictGet_of_mem_nodup {α : Type} (d : List (String × α)) (k : String) (v : α)
    (hnd : (d.map Prod.fst).Nodup) (hmem : (k, v) ∈ d) : dictGet d k = some v := by
  induction d with
  | nil => simp at hmem
  | cons kv rest ih =>
    obtain ⟨k0, v0⟩ := kv
    rw [List.map_cons, List.nodup_cons] at hnd
    rcases List.mem_cons.mp hmem with h1 | h1
    · have hk : k = k0 := congrArg Prod.fst h1
      have hv : v = v0 := congrArg Prod.snd h1
      rw [dictGet, if_pos hk.symm, hv]
    · have hkmem : k ∈ rest.map Prod.fst := by
        simpa using List.mem_map_of_mem Prod.fst h1
      have hk0 : ¬ k0 = k := by
        intro hh
        rw [hh] at hnd
        exact hnd.1 hkmem
      rw [dictGet, if_neg hk0]
      exact ih hnd.2 h1

theorem filterMap_keys_dict {α : Type} (d : List (String × α))
    (hnd : (d.map Prod.fst).Nodup) :
    (d.map Prod.fst).filterMap (fun k => (dictGet d k).map (fun e => (k, e))) = d := by
  induction d with
  | nil => rfl
  | cons kv rest ih =>
    obtain ⟨k0, v0⟩ := kv
    rw [List.map_cons, List.nodup_cons] at hnd
    rw [List.map_cons, List.filterMap_cons]
    have h0 : dictGet ((k0, v0) :: rest) k0 = some v0 := by
      rw [dictGet, if_pos rfl]
    have hcong : (rest.map Prod.fst).filterMap
          (fun k => (dictGet ((k0, v0) :: rest) k).map (fun e => (k, e)))
        = (rest.map Prod.fst).filterMap (fun k => (dictGet rest k).map (fun e => (k, e))) := by
      apply filterMap_congr_on
      intro k hk
      have hne : ¬ k0 = k := fun hh => hnd.1 (hh ▸ hk)
      rw [dictGet, if_neg hne]
    dsimp only
    rw [h0, Option.map_some']
    dsimp only
    rw [hcong, ih hnd.2]

/-- The display pass reproduces the consolidated dict itself. -/
theorem consolidate_eq (l : List Session) :
    consolidate l = (consState l).consolidated := by
  simp only [consolidate]
  rw [← (consState_keys l).1]
  refine filterMap_keys_dict _ ?_
  rw [(consState_keys l).1]
  exact (consState_keys l).2

/-- `display_order` is the first-seen order of the grouping keys. -/
theorem consState_order (l : List Session) :
    (consState l).display_order = firstSeen (l.map sessionGroupKey) := by
  induction l using List.reverseRecOn with
  | nil => rfl
  | append_singleton l s ih =>
    rw [consState_concat, List.map_append, firstSeen, List.foldl_append, ← firstSeen]
    simp only [List.map_cons, List.map_nil, List.foldl_cons, List.foldl_nil]
    rcases consolidateStep_shape (consState l) s with
      ⟨entry, entry', hg, hcons, horder, _, _⟩ | ⟨e0, hg, hcons, horder, _, _⟩
    · rw [horder, ih]
      have hmem : sessionGroupKey s ∈ firstSeen (l.map sessionGroupKey) := by
        rw [← ih, ← (consState_keys l).1]
        exact List.mem_map_of_mem Prod.fst (dictGet_mem _ _ _ hg)
      rw [if_pos (by simpa using hmem)]
    · rw [horder, ih]
      have hmem : sessionGroupKey s ∉ firstSeen (l.map sessionGroupKey) := by
        rw [← ih, ← (consState_keys l).1]
        exact (dictGet_eq_none_iff _ _).mp hg
      rw [if_neg (by simpa using hmem)]

/-- **C8** Consolidation groups sessions by key (canonical restricted path
when classified, else the exact title — `sessionGroupKey`), preserves the
first-seen order of grouping keys, accumulates minutes within each group,
and once any merged row is open (empty end) the group's last-end field is
empty in the final result, regardless of later closed rows. -/
theorem claim_C8 (sessions : List Session) :
    (consolidate sessions).map Prod.fst = firstSeen (sessions.map sessionGroupKey)
    ∧ (∀ k e, (k, e) ∈ consolidate sessions →
        e.mins = ((sessions.filter (fun s => sessionGroupKey s = k)).map
          Session.duration_minutes).sum)
    ∧ (∀ k, (∃ s ∈ sessions, sessionGroupKey s = k ∧ s.end_ = "") →
        ∃ e, (k, e) ∈ consolidate sessions ∧ e.last_end = "") := by
  have hkeys := consState_keys sessions
  have hnd : ((consState sessions).consolidated.map Prod.fst).Nodup := by
    rw [hkeys.1]
    exact hkeys.2
  refine ⟨?_, ?_, ?_⟩
  · rw [consolidate_eq, hkeys.1, consState_order]
  · intro k e hmem
    rw [consolidate_eq] at hmem
    exact consState_mins sessions k e (dictGet_of_mem_nodup _ _ _ hnd hmem)
  · intro k hex
    obtain ⟨e, hg, hle⟩ := consState_open sessions k hex
    exact ⟨e, by rw [consolidate_eq]; exact dictGet_mem _ _ _ hg, hle⟩

/-- Witness for C8: a closed and an open "Water Spider" segment plus an
unclassified "Pick" row — the open segment keeps the group's last-end empty,
and the key order is first-seen. -/
theorem claim_C8_witness :
    (∃ e, ("Vreturns WaterSpider", e) ∈ consolidate
        [{ title := "Water Spider", start := "18:00", end_ := "19:10",
           duration := "70:00", duration_minutes := 70, row_type := "job" },
         { title := "Water Spider", start := "19:10", end_ := "",
           duration := "60:00", duration_minutes := 60, row_type := "job" },
         { title := "Pick", start := "20:10", end_ := "21:10",
           duration := "60:00", duration_minutes := 60, row_type := "job" }]
      ∧ e.last_end = "")
    ∧ (consolidate
        [{ title := "Water Spider", start := "18:00", end_ := "19:10",
           duration := "70:00", duration_minutes := 70, row_type := "job" },
         { title := "Water Spider", start := "19:10", end_ := "",
           duration := "60:00", duration_minutes := 60, row_type := "job" },
         { title := "Pick", start := "20:10", end_ := "21:10",
           duration := "60:00", duration_minutes := 60, row_type := "job" }]).map Prod.fst
      = firstSeen
        ([{ title := "Water Spider", start := "18:00", end_ := "19:10",
            duration := "70:00", duration_minutes := 70, row_type := "job" },
          { title := "Water Spider", start := "19:10", end_ := "",
            duration := "60:00", duration_minutes := 60, row_type := "job" },
          { title := "Pick", start := "20:10", end_ := "21:10",
            duration := "60:00", duration_minutes := 60, row_type := "job" }].map
          sessionGroupKey) :=
  ⟨(claim_C8 _).2.2 "Vreturns WaterSpider"
    ⟨{ title := "Water Spider", start := "19:10", end_ := "",
       duration := "60:00", duration_minutes := 60, row_type := "job" },
     by with_unfolding_all decide, by decide, rfl⟩,
   (claim_C8 _).1⟩

/-! ## Claim C9: rollup dedupe and descending sort -/

theorem foldl_invariant {α β : Type} (P : α → Prop) (f : α → β → α) (l : List β)
    (init : α) (h0 : P init) (hstep : ∀ st b, P st → P (f st b)) :
    P (l.foldl f init) := by
  induction l generalizing init with
  | nil => exact h0
  | cons b rest ih => exact ih (f init b) (hstep init b h0)

theorem insertHoursDesc_perm (a : AssociateActivity) (l : List AssociateActivity) :
    (insertHoursDesc a l).Perm (a :: l) := by
  induction l with
  | nil => exact List.Perm.refl _
  | cons b rest ih =>
    rw [insertHoursDesc]
    by_cases hb : b.hours < a.hours
    · rw [if_pos hb]
    · rw [if_neg hb]
      exact (ih.cons b).trans (List.Perm.swap a b rest)

theorem sortHoursDesc_perm (l : List AssociateActivity) : (sortHoursDesc l).Perm l := by
  induction l with
  | nil => exact List.Perm.refl _
  | cons a rest ih =>
    rw [sortHoursDesc]
    exact (insertHoursDesc_perm a (sortHoursDesc rest)).trans (ih.cons a)

theorem chain_insertHoursDesc (a : AssociateActivity) (l : List AssociateActivity)
    (h : List.Chain' (fun x y => y.hours ≤ x.hours) l) :
    List.Chain' (fun x y => y.hours ≤ x.hours) (insertHoursDesc a l) := by
  induction l with
  | nil => exact List.chain'_singleton a
  | cons b rest ih =>
    rw [insertHoursDesc]
    by_cases hb : b.hours < a.hours
    · rw [if_pos hb]
      exact List.Chain'.cons (le_of_lt hb) h
    · rw [if_neg hb]
      obtain ⟨hhead, hrest⟩ := List.chain'_cons'.mp h
      apply List.chain'_cons'.mpr
      refine ⟨?_, ih hrest⟩
      intro y hy
      cases rest with
      | nil =>
        rw [insertHoursDesc] at hy
        simp at hy
        rw [← hy]
        exact not_lt.mp hb
      | cons c rest' =>
        rw [insertHoursDesc] at hy
        by_cases hc : c.hours < a.hours
        · rw [if_pos hc] at hy
          simp at hy
          rw [← hy]
          exact not_lt.mp hb
        · rw [if_neg hc] at hy
          simp at hy
          rw [← hy]
          exact hhead c rfl

theorem sortHoursDesc_chain (l : List AssociateActivity) :
    List.Chain' (fun x y => y.hours ≤ x.hours) (sortHoursDesc l) := by
  induction l with
  | nil => exact List.chain'_nil
  | cons a rest ih =>
    rw [sortHoursDesc]
    exact chain_insertHoursDesc a _ ih

theorem processRollupRow_preserve (tp : String)
    (st : List (String × List AssociateActivity) × List String) (cells : List String)
    (h1 : ∀ pe ∈ st.1, ((pe.2.map (fun aa => aa.badge_id)).Nodup))
    (h2 : ∀ aa ∈ dictGetD st.1 tp [], aa.badge_id ∈ st.2) :
    (∀ pe ∈ (processRollupRow tp st cells).1,
      ((pe.2.map (fun aa => aa.badge_id)).Nodup))
    ∧ (∀ aa ∈ dictGetD (processRollupRow tp st cells).1 tp [],
        aa.badge_id ∈ (processRollupRow tp st cells).2) := by
  obtain ⟨result, seen⟩ := st
  simp only [processRollupRow]
  split
  · exact ⟨h1, h2⟩
  · split
    · exact ⟨h1, h2⟩
    · split
      · exact ⟨h1, h2⟩
      · split
        · exact ⟨h1, h2⟩
        · next hseen =>
          dsimp only at h1 h2 ⊢
          have hnotseen : stripHtml (cells.getD 1 "") ∉ seen := by
            intro hmem
            exact hseen (by simpa using hmem)
          have holdnodup : ((dictGetD result tp []).map (fun aa => aa.badge_id)).Nodup := by
            cases hg : dictGet result tp with
            | none => simp [dictGetD, hg]
            | some old =>
              have := h1 (tp, old) (dictGet_mem _ _ _ hg)
              simpa [dictGetD, hg] using this
          have hdisj : ∀ b ∈ (dictGetD result tp []).map (fun aa => aa.badge_id),
              b ≠ stripHtml (cells.getD 1 "") := by
            intro b hbmem heq
            apply hnotseen
            rw [← heq]
            rcases List.mem_map.mp hbmem with ⟨aa, haa, hbb⟩
            rw [← hbb]
            exact h2 aa haa
          constructor
          · intro pe hpe
            obtain ⟨p0, l0⟩ := pe
            rcases mem_dictSet _ _ _ _ _ hpe with hin | ⟨hfst, hsnd⟩
            · exact h1 (p0, l0) hin
            · dsimp only at hfst hsnd ⊢
              subst hfst
              subst hsnd
              rw [List.map_append, List.nodup_append]
              refine ⟨holdnodup, by simp, ?_⟩
              intro b hbmem
              simp only [List.map_cons, List.map_nil, List.mem_singleton]
              exact fun hc => hdisj b hbmem (by simpa using hc)
          · intro aa haa
            rw [dictGetD, dictGet_dictSet_self, Option.getD_some] at haa
            rcases List.mem_append.mp haa with hold | hnew
            · exact List.mem_append.mpr (Or.inl (h2 aa hold))
            · rw [List.mem_singleton.mp hnew]
              exact List.mem_append.mpr (Or.inr (by simp))

theorem rollupRows_preserve (tp : String) (rows : List (List String))
    (st0 : List (String × List AssociateActivity) × List String)
    (h1 : ∀ pe ∈ st0.1, ((pe.2.map (fun aa => aa.badge_id)).Nodup))
    (h2 : ∀ aa ∈ dictGetD st0.1 tp [], aa.badge_id ∈ st0.2) :
    ∀ pe ∈ (rows.foldl (processRollupRow tp) st0).1,
      ((pe.2.map (fun aa => aa.badge_id)).Nodup) :=
  (foldl_invariant
    (fun st => (∀ pe ∈ st.1, ((pe.2.map (fun aa => aa.badge_id)).Nodup))
        ∧ (∀ aa ∈ dictGetD st.1 tp [], aa.badge_id ∈ st.2))
    (processRollupRow tp) rows st0 ⟨h1, h2⟩
    (fun st b hp => processRollupRow_preserve tp st b hp.1 hp.2)).1

theorem processRollupTable_preserve (pn : String)
    (result : List (String × List AssociateActivity)) (t : RollupTable)
    (h : ∀ pe ∈ result, ((pe.2.map (fun aa => aa.badge_id)).Nodup)) :
    ∀ pe ∈ processRollupTable pn result t,
      ((pe.2.map (fun aa => aa.badge_id)).Nodup) := by
  simp only [processRollupTable]
  split
  · exact h
  · next tp0 hfind =>
    generalize (if tp0 = "Water Spider" ∧ strContains pn "WHD" then "WHD Waterspider"
        else tp0) = tp
    apply rollupRows_preserve
    · dsimp only
      split
      · exact h
      · intro pe hpe
        rcases List.mem_append.mp hpe with hin | hone
        · exact h pe hin
        · rw [List.mem_singleton.mp hone]
          simp
    · dsimp only
      intro aa haa
      exact List.mem_map_of_mem (fun aa' => aa'.badge_id) haa

theorem parse_function_rollup_preserve (tables : List RollupTable) (pn : String)
    (result : List (String × List AssociateActivity))
    (h : ∀ pe ∈ result, ((pe.2.map (fun aa => aa.badge_id)).Nodup)) :
    ∀ pe ∈ parse_function_rollup tables pn result,
      ((pe.2.map (fun aa => aa.badge_id)).Nodup) := by
  show ∀ pe ∈ tables.foldl (processRollupTable pn) result,
      ((pe.2.map (fun aa => aa.badge_id)).Nodup)
  exact foldl_invariant
    (fun st => ∀ pe ∈ st, ((pe.2.map (fun aa => aa.badge_id)).Nodup))
    (processRollupTable pn) tables result h
    (fun st b hp => processRollupTable_preserve pn st b hp)

set_option maxHeartbeats 1000000 in
/-- **C9** In every fetched result, each path's associate entries carry
pairwise-distinct badge ids (duplicate or non-digit badge rows are
skipped), and each path's list is sorted in descending order of hours. -/
theorem claim_C9 (processes : List (String × List RollupTable)) (p : String)
    (l : List AssociateActivity)
    (hmem : (p, l) ∈ fetch_all_path_aas processes) :
    ((l.map (fun aa => aa.badge_id)).Nodup)
    ∧ List.Chain' (fun a b => b.hours ≤ a.hours) l := by
  have hall := foldl_invariant
    (fun st => ∀ pe ∈ st, ((pe.2.map (fun aa => aa.badge_id)).Nodup))
    (fun acc pr => parse_function_rollup pr.2 pr.1 acc) processes
    (FCLM_RESTRICTED_PATHS.map (fun p' => (p', ([] : List AssociateActivity))))
    (by
      intro pe hpe
      rcases List.mem_map.mp hpe with ⟨p', _, hpe'⟩
      rw [← hpe']
      simp)
    (fun st b hp => parse_function_rollup_preserve b.2 b.1 st hp)
  have hmem' : (p, l) ∈ (processes.foldl
      (fun acc pr => parse_function_rollup pr.2 pr.1 acc)
      (FCLM_RESTRICTED_PATHS.map (fun p' => (p', ([] : List AssociateActivity))))).map
      (fun pe => (pe.1, sortHoursDesc pe.2)) := hmem
  rcases List.mem_map.mp hmem' with ⟨pe, hpein, heq⟩
  have hsnd : sortHoursDesc pe.2 = l := congrArg Prod.snd heq
  refine ⟨?_, ?_⟩
  · rw [← hsnd]
    exact (((sortHoursDesc_perm pe.2).map (fun aa => aa.badge_id)).symm).nodup
      (hall pe hpein)
  · rw [← hsnd]
    exact sortHoursDesc_chain pe.2

/-- Witness for C9: a "C-Returns_EndofLine" table with two distinct badges,
one duplicated badge row and one non-AMZN/TEMP row yields exactly two
entries with distinct badge ids, sorted descending by hours. -/
theorem claim_C9_witness :
    ((([{ badge_id := "456", name := "Bob", hours := 15 / 2, minutes := 450 },
        { badge_id := "123", name := "Alice", hours := 5 / 2, minutes := 150 }] :
        List AssociateActivity).map (fun aa => aa.badge_id)).Nodup)
    ∧ List.Chain' (fun a b => b.hours ≤ a.hours)
        ([{ badge_id := "456", name := "Bob", hours := 15 / 2, minutes := 450 },
          { badge_id := "123", name := "Alice", hours := 5 / 2, minutes := 150 }] :
          List AssociateActivity) :=
  claim_C9
    [("V-Returns",
      [⟨"C-Returns_EndofLine",
        [["AMZN", "123", "Alice", "x", "2.5"],
         ["AMZN", "456", "Bob", "x", "7.5"],
         ["AMZN", "123", "Alice", "x", "9.0"],
         ["HDR", "999", "skip", "x", "1.0"],
         ["AMZN", "45x6", "bad", "x", "1.0"]]⟩])]
    "C-Returns_EndofLine"
    [{ badge_id := "456", name := "Bob", hours := 15 / 2, minutes := 450 },
     { badge_id := "123", name := "Alice", hours := 5 / 2, minutes := 150 }]
    (by with_unfolding_all decide)

end IND8
